import Mathlib

/-!
Verification of ytplaycount

A shallow embedding of `main.go` (package `main` of `sudanchapagain/ytplaycount`) and
theorems about it.

Conventions of the embedding.

* A Go `string` is a `List Char`.  The two regular expressions of the program mention ASCII
  characters only, so reading the string code point by code point or byte by byte gives the
  same matches.
* `int` and `time.Duration` are 64-bit signed integers: they are modelled by `Int`, and every
  arithmetic operation of the source is followed by `wrap64`.
* `float64` values are modelled by the exact fraction they denote (`Frac`), and every
  floating-point operation of the source is the exact operation followed by the IEEE 754
  rounding to the nearest value with a 53-bit significand, ties to even (`roundF64`).
* A Go call either returns (with a nil or a non-nil `error`) or panics (`GoResult`).
* The remote endpoints are parameters of the functions that call them.
-/

set_option maxRecDepth 100000

namespace Ytplaycount

/-! ## Outcome of a Go call -/

/-- Outcome of a call of a Go function of type `func(...) (α, error)`. -/
inductive GoResult (α : Type) where
  /-- normal return, the error is nil -/
  | ret (v : α)
  /-- normal return with a non-nil error -/
  | error (msg : String)
  /-- run-time panic: the goroutine unwinds and the run aborts -/
  | panic (msg : String)
  deriving DecidableEq, Repr

/-- Whether the call panicked. -/
def GoResult.isPanic {α : Type} : GoResult α → Bool
  | GoResult.panic _ => true
  | _ => false

/-- Indexing a slice `xs[i]`: a run-time panic when `i` is out of range. -/
def index {α : Type} (xs : List α) (i : Nat) : GoResult α :=
  match xs.get? i with
  | some x => GoResult.ret x
  | none => GoResult.panic "runtime error: index out of range"

/-! ## Regular expressions (package `regexp`)

The fragment of RE2 syntax used by the two patterns of the program, with Go's leftmost-first
semantics: among the matches that start at the leftmost possible position, the one a
backtracking search finds first (a greedy operator tries to match before it tries to skip). -/

/-- Regular expression syntax. -/
inductive Regex where
  /-- literal character -/
  | lit (c : Char)
  /-- one character of a class -/
  | cls (p : Char → Bool)
  /-- one or more characters of a class, greedy: `[...]+` -/
  | many1 (p : Char → Bool)
  /-- concatenation -/
  | seq (r s : Regex)
  /-- zero or one, greedy: `r?` -/
  | opt (r : Regex)
  /-- capturing group number `i`: `(r)` -/
  | group (i : Nat) (r : Regex)
  /-- non-capturing group: `(?:r)` -/
  | ncgroup (r : Regex)

/-- Text of the submatches: entry `i` is the text of group `i` (entry 0 the whole match), the
empty string for a group that did not take part in the match. -/
abbrev Captures := List (List Char)

/-- Text consumed between the input `inp` and its suffix `rest`. -/
def consumed (inp rest : List Char) : List Char :=
  inp.take (inp.length - rest.length)

/-- Greedy loop of `[...]*`: as many characters of the class as possible, one fewer on each
backtrack. -/
def matchStar (p : Char → Bool) (k : List Char → Option Captures) :
    List Char → Option Captures
  | [] => k []
  | c :: cs =>
    if p c then (matchStar p k cs).orElse (fun _ => k (c :: cs)) else k (c :: cs)

/-- Backtracking matcher in continuation-passing style: `matchRe r inp caps k` matches `r` at
the head of `inp` and hands the rest of the input and the captures to `k`; `none` is failure. -/
def matchRe : Regex → List Char → Captures → (List Char → Captures → Option Captures) →
    Option Captures
  | Regex.lit c, inp, caps, k =>
    match inp with
    | [] => none
    | x :: xs => if x = c then k xs caps else none
  | Regex.cls p, inp, caps, k =>
    match inp with
    | [] => none
    | x :: xs => if p x then k xs caps else none
  | Regex.many1 p, inp, caps, k =>
    match inp with
    | [] => none
    | x :: xs => if p x then matchStar p (fun rest => k rest caps) xs else none
  | Regex.seq r s, inp, caps, k =>
    matchRe r inp caps (fun rest caps1 => matchRe s rest caps1 k)
  | Regex.opt r, inp, caps, k =>
    (matchRe r inp caps k).orElse (fun _ => k inp caps)
  | Regex.group i r, inp, caps, k =>
    matchRe r inp caps (fun rest caps1 => k rest (caps1.set i (consumed inp rest)))
  | Regex.ncgroup r, inp, caps, k => matchRe r inp caps k

/-- Match of `r` anchored at the head of `inp`; `n` is the number of capturing groups. -/
def matchHere (r : Regex) (n : Nat) (inp : List Char) : Option Captures :=
  matchRe (Regex.group 0 r) inp (List.replicate (n + 1) []) (fun _ caps => some caps)

/-- Leftmost match of `r` in `inp`. -/
def findFrom (r : Regex) (n : Nat) : List Char → Option Captures
  | [] => matchHere r n []
  | c :: cs => (matchHere r n (c :: cs)).orElse (fun _ => findFrom r n cs)

/-- Model of `(*Regexp).FindStringSubmatch`: the text of the leftmost match and of its
submatches, the nil slice (here `[]`) when there is no match. -/
def FindStringSubmatch (r : Regex) (n : Nat) (s : List Char) : Captures :=
  match findFrom r n s with
  | some caps => caps
  | none => []

/-- String of literal characters as a regular expression followed by `r`. -/
def litThen : List Char → Regex → Regex
  | [], r => r
  | c :: cs, r => Regex.seq (Regex.lit c) (litThen cs r)

/-- Perl class `\d`: in RE2 the ASCII digits only. -/
def isDigit (c : Char) : Bool := decide ('0' ≤ c) && decide (c ≤ '9')

/-- Class `[a-zA-Z0-9_-]`. -/
def isIdChar (c : Char) : Bool :=
  (decide ('a' ≤ c) && decide (c ≤ 'z')) || (decide ('A' ≤ c) && decide (c ≤ 'Z')) ||
    (decide ('0' ≤ c) && decide (c ≤ '9')) || c == '_' || c == '-'

/-- Class `[?&]`. -/
def isQueryDelim (c : Char) : Bool := c == '?' || c == '&'

/-! ## `extractPlaylistID` -/

/-- The pattern `[?&]list=([a-zA-Z0-9_-]+)`. -/
def playlistRe : Regex :=
  Regex.seq (Regex.cls isQueryDelim)
    (litThen "list=".toList (Regex.group 1 (Regex.many1 isIdChar)))

/-- Embedding of `extractPlaylistID`. -/
def extractPlaylistID (url : List Char) : List Char :=
  let submatches := FindStringSubmatch playlistRe 1 url
  if submatches.length > 1 then submatches.getD 1 [] else []

/-! ## `strconv.Atoi` and 64-bit integers -/

/-- Two's-complement wrap-around of a mathematical integer to `int64`. -/
def wrap64 (x : Int) : Int := (x + 2 ^ 63) % 2 ^ 64 - 2 ^ 63

/-- Largest `int64`. -/
def maxInt64 : Int := 2 ^ 63 - 1

/-- Smallest `int64`. -/
def minInt64 : Int := -(2 ^ 63)

/-- Value of a run of characters read as a base-10 numeral, `none` when one of them is not an
ASCII digit. -/
def digitsValue : List Char → Nat → Option Nat
  | [], acc => some acc
  | c :: cs, acc =>
    if isDigit c then digitsValue cs (acc * 10 + (c.toNat - '0'.toNat)) else none

/-- The two errors of `strconv.Atoi`. -/
inductive AtoiError where
  /-- `strconv.ErrSyntax`: the string is not a numeral -/
  | invalid
  /-- `strconv.ErrRange`: the numeral does not fit the integer type -/
  | outOfRange
  deriving DecidableEq, Repr

/-- Magnitude part of `strconv.Atoi`, after the sign has been picked off. -/
def atoiMagnitude (neg : Bool) (s : List Char) : Int × Option AtoiError :=
  if s = [] then (0, some AtoiError.invalid)
  else
    match digitsValue s 0 with
    | none => (0, some AtoiError.invalid)
    | some un =>
      if !neg && decide ((2 : Int) ^ 63 ≤ un) then (maxInt64, some AtoiError.outOfRange)
      else if neg && decide ((2 : Int) ^ 63 < un) then (minInt64, some AtoiError.outOfRange)
      else (if neg then -(un : Int) else (un : Int), none)

/-- Model of `strconv.Atoi` on a 64-bit platform: the value and the error.  A numeral that
does not fit is a range error, and the value returned with it is the nearest `int64`. -/
def Atoi (s : List Char) : Int × Option AtoiError :=
  match s with
  | [] => (0, some AtoiError.invalid)
  | '+' :: rest => atoiMagnitude false rest
  | '-' :: rest => atoiMagnitude true rest
  | _ => atoiMagnitude false s

/-! ## `parseISO8601Duration` -/

/-- One optional component `(?:(\d+)X)?` with its digits in group `i`. -/
def componentRe (i : Nat) (unit : Char) : Regex :=
  Regex.opt (Regex.ncgroup (Regex.seq (Regex.group i (Regex.many1 isDigit)) (Regex.lit unit)))

/-- The pattern `PT(?:(\d+)H)?(?:(\d+)M)?(?:(\d+)S)?`. -/
def durationRe : Regex :=
  litThen "PT".toList
    (Regex.seq (componentRe 1 'H') (Regex.seq (componentRe 2 'M') (componentRe 3 'S')))

/-- Nanoseconds in `time.Second`. -/
def Second : Int := 1000000000

/-- Nanoseconds in `time.Minute`. -/
def Minute : Int := 60 * Second

/-- Nanoseconds in `time.Hour`. -/
def Hour : Int := 60 * Minute

/-- A numeric capture converted as the source does: `x, _ = strconv.Atoi(m)` when `m` is not
empty (the error is dropped, the value kept), zero otherwise. -/
def component (m : List Char) : Int :=
  if m ≠ [] then (Atoi m).1 else 0

/-- The expression `time.Duration(hours)*time.Hour + time.Duration(minutes)*time.Minute +
time.Duration(seconds)*time.Second` in `int64` arithmetic. -/
def durationOf (hours minutes seconds : Int) : Int :=
  wrap64 (wrap64 (wrap64 (hours * Hour) + wrap64 (minutes * Minute)) + wrap64 (seconds * Second))

/-- Embedding of `parseISO8601Duration`: the three index expressions `matches[1]`,
`matches[2]`, `matches[3]` are evaluated in this order, each with its bounds check. -/
def parseISO8601Duration (isoDuration : List Char) : GoResult Int :=
  let submatches := FindStringSubmatch durationRe 3 isoDuration
  match index submatches 1 with
  | GoResult.panic msg => GoResult.panic msg
  | GoResult.error msg => GoResult.error msg
  | GoResult.ret m1 =>
    match index submatches 2 with
    | GoResult.panic msg => GoResult.panic msg
    | GoResult.error msg => GoResult.error msg
    | GoResult.ret m2 =>
      match index submatches 3 with
      | GoResult.panic msg => GoResult.panic msg
      | GoResult.error msg => GoResult.error msg
      | GoResult.ret m3 =>
        GoResult.ret (durationOf (component m1) (component m2) (component m3))

/-! ## Decimal output (`%d`) -/

/-- Character of a decimal digit. -/
def digitChar (n : Nat) : Char := Char.ofNat ('0'.toNat + n)

/-- Decimal digits of `n` in front of `acc`, most significant first; `fuel` bounds the number
of digits. -/
def natDigits : Nat → Nat → List Char → List Char
  | 0, _, acc => acc
  | fuel + 1, n, acc =>
    if n / 10 = 0 then digitChar (n % 10) :: acc
    else natDigits fuel (n / 10) (digitChar (n % 10) :: acc)

/-- Decimal numeral of a natural number. -/
def formatNat (n : Nat) : List Char := natDigits (n + 1) n []

/-- The verb `%d` of package `fmt` on an `int`. -/
def formatInt (i : Int) : List Char :=
  if i < 0 then '-' :: formatNat i.natAbs else formatNat i.natAbs

/-! ## `float64` -/

/-- Exact value `num / den` of a finite `float64`, or of the exact result of an operation
before it is rounded.  The denominator is positive. -/
structure Frac where
  num : Int
  den : Nat
  deriving DecidableEq, Repr

/-- Number of binary digits of `n`; `fuel` bounds them. -/
def bitLength : Nat → Nat → Nat
  | 0, _ => 0
  | fuel + 1, n => if n = 0 then 0 else bitLength fuel (n / 2) + 1

/-- The fraction `(n / d) / 2 ^ s` as a pair numerator, denominator. -/
def scalePow2 (n d : Nat) (s : Int) : Nat × Nat :=
  if 0 ≤ s then (n, d * 2 ^ s.toNat) else (n * 2 ^ (-s).toNat, d)

/-- Binary exponent of `n / d` for positive `n` and `d`: the `e` with
`2 ^ e ≤ n / d < 2 ^ (e + 1)`. -/
def ilog2 (n d : Nat) : Int :=
  let e0 : Int := (bitLength n n : Int) - (bitLength d d : Int)
  let nd := scalePow2 n d e0
  if nd.2 ≤ nd.1 then e0 else e0 - 1

/-- Nearest natural number to `n / d`, ties to the even one. -/
def roundHalfEven (n d : Nat) : Nat :=
  let q := n / d
  let r := n % d
  if 2 * r < d then q
  else if d < 2 * r then q + 1
  else if q % 2 = 0 then q else q + 1

/-- Rounding of the magnitude `n / d` to `float64`: the quantum is `2 ^ (e - 52)` for a value
of binary exponent `e`, and `2 ^ (-1074)` in the subnormal range. -/
def roundMag (n d : Nat) : Frac :=
  if n = 0 then ⟨0, 1⟩
  else
    let s : Int := max (ilog2 n d - 52) (-1074)
    let nd := scalePow2 n d s
    let m := roundHalfEven nd.1 nd.2
    if 0 ≤ s then ⟨(m * 2 ^ s.toNat : Nat), 1⟩ else ⟨(m : Nat), 2 ^ (-s).toNat⟩

/-- IEEE 754 round-to-nearest, ties-to-even, of an exact value to `float64`.  Overflow to an
infinity (magnitude `2 ^ 1024` and above) is not modelled: no value of the program comes
near it before the conversions to integer, which reject everything from `2 ^ 63` on. -/
def roundF64 (x : Frac) : Frac :=
  if x.num < 0 then
    let r := roundMag x.num.natAbs x.den
    ⟨-r.num, r.den⟩
  else roundMag x.num.natAbs x.den

/-- Conversion `float64(i)` of an integer. -/
def float64 (i : Int) : Frac := roundF64 ⟨i, 1⟩

/-- Floating-point addition. -/
def fadd (x y : Frac) : Frac :=
  roundF64 ⟨x.num * y.den + y.num * x.den, x.den * y.den⟩

/-- Floating-point division by a non-zero `y`. -/
def fdiv (x y : Frac) : Frac :=
  roundF64 ⟨x.num * y.den * y.num.sign, x.den * y.num.natAbs⟩

/-- Integer part of a `float64`, towards zero. -/
def truncate (x : Frac) : Int := Int.tdiv x.num x.den

/-- Conversion `int64(x)` of a `float64`; the Go specification leaves the result to the
implementation when the integer part does not fit, which is `none` here. -/
def toInt64 (x : Frac) : Option Int :=
  if minInt64 ≤ truncate x ∧ truncate x ≤ maxInt64 then some (truncate x) else none

/-! ## `time.Duration` methods and `formatDuration` -/

/-- Model of `Duration.Hours`: `float64(d / Hour) + float64(d % Hour) / (60 * 60 * 1e9)`. -/
def Hours (d : Int) : Frac :=
  fadd (float64 (Int.tdiv d Hour)) (fdiv (float64 (Int.tmod d Hour)) ⟨3600000000000, 1⟩)

/-- Model of `Duration.Minutes`: `float64(d / Minute) + float64(d % Minute) / (60 * 1e9)`. -/
def Minutes (d : Int) : Frac :=
  fadd (float64 (Int.tdiv d Minute)) (fdiv (float64 (Int.tmod d Minute)) ⟨60000000000, 1⟩)

/-- Model of `Duration.Seconds`: `float64(d / Second) + float64(d % Second) / 1e9`. -/
def Seconds (d : Int) : Frac :=
  fadd (float64 (Int.tdiv d Second)) (fdiv (float64 (Int.tmod d Second)) ⟨1000000000, 1⟩)

/-- Embedding of `formatDuration`.  The three conversions `int(...)` are truncations; their
arguments are at most `2 ^ 63 / 10 ^ 9` in magnitude, so they fit. -/
def formatDuration (d : Int) : List Char :=
  let hours := truncate (Hours d)
  let minutes := Int.tmod (truncate (Minutes d)) 60
  let seconds := Int.tmod (truncate (Seconds d)) 60
  formatInt hours ++ "h ".toList ++ formatInt minutes ++ "m ".toList ++ formatInt seconds
    ++ "s".toList

/-! ## `printDurationAtSpeed` -/

/-- The verb `%.2f` of package `fmt`: the decimal numeral with two digits after the point
nearest to the exact value, ties to even. -/
def formatFloat2 (x : Frac) : List Char :=
  let n := roundHalfEven (x.num.natAbs * 100) x.den
  let digits := formatNat (n / 100) ++ ['.', digitChar (n % 100 / 10), digitChar (n % 10)]
  if x.num < 0 then '-' :: digits else digits

/-- Embedding of `printDurationAtSpeed` for a non-zero `speed`: the line written to standard
output, `none` when the conversion of the quotient to `time.Duration` is out of range. -/
def printDurationAtSpeed (totalDuration : Int) (speed : Frac) : Option (List Char) :=
  match toInt64 (fdiv (float64 totalDuration) speed) with
  | none => none
  | some adjustedDuration =>
    some ("At ".toList ++ formatFloat2 speed ++ "x: ".toList ++ formatDuration adjustedDuration
      ++ "\n".toList)

/-! ## `fetchPlaylistItems` -/

/-- Decoded body of a reply of the listing endpoint: the `videoId` of each item, in order,
and the continuation token (empty when absent). -/
structure Page where
  items : List (List Char)
  nextPageToken : List Char
  deriving DecidableEq, Repr

/-- What `http.Get` followed by the JSON decoding yields: a page, or the error of either. -/
abbrev ListingReply := Except String Page

/-- The constant `apiURL`. -/
def apiURL : List Char := "https://www.googleapis.com/youtube/v3/playlistItems".toList

/-- The request URL of `fetchPlaylistItems`. -/
def listingURL (playlistID nextPageToken apiKey : List Char) : List Char :=
  apiURL ++ "?part=contentDetails&playlistId=".toList ++ playlistID
    ++ "&maxResults=50&pageToken=".toList ++ nextPageToken ++ "&key=".toList ++ apiKey

/-- Outcome of a run of `fetchPlaylistItems`: what it returns, the URLs it requested in
order, and the state it leaves the endpoint in. -/
structure FetchRun (σ : Type) where
  result : GoResult (List (List Char))
  requests : List (List Char)
  server : σ

/-- The `for` loop of `fetchPlaylistItems` against an endpoint `serve` with state `σ`; the
loop has no bound of its own, `fuel` bounds the number of iterations (`none`: not finished
within `fuel` iterations). -/
def fetchLoop {σ : Type} (serve : σ → List Char → ListingReply × σ)
    (apiKey playlistID : List Char) :
    Nat → σ → List Char → List (List Char) → List (List Char) → Option (FetchRun σ)
  | 0, _, _, _, _ => none
  | fuel + 1, st, nextPageToken, videoIDs, requests =>
    let url := listingURL playlistID nextPageToken apiKey
    match serve st url with
    | (Except.error err, st1) => some ⟨GoResult.error err, requests ++ [url], st1⟩
    | (Except.ok result, st1) =>
      let videoIDs1 := videoIDs ++ result.items
      if result.nextPageToken = [] then
        some ⟨GoResult.ret videoIDs1, requests ++ [url], st1⟩
      else fetchLoop serve apiKey playlistID fuel st1 result.nextPageToken videoIDs1
        (requests ++ [url])

/-- Embedding of `fetchPlaylistItems`. -/
def fetchPlaylistItems {σ : Type} (serve : σ → List Char → ListingReply × σ)
    (apiKey playlistID : List Char) (fuel : Nat) (st : σ) : Option (FetchRun σ) :=
  fetchLoop serve apiKey playlistID fuel st [] [] []

/-- A listing endpoint that serves a fixed sequence of pages, one per request, whatever the
request; it fails once the sequence is used up. -/
def servePages : List Page → List Char → ListingReply × List Page
  | [], _ => (Except.error "no page left", [])
  | p :: ps, _ => (Except.ok p, ps)

/-! ## `fetchVideoDuration` and the loop of `main` -/

/-- What `http.Get` followed by the JSON decoding yields for the detail endpoint: the
`duration` string of each item, or the error of either. -/
abbrev DetailReply := Except String (List (List Char))

/-- The constant `videoDetailsURL`. -/
def videoDetailsURL : List Char := "https://www.googleapis.com/youtube/v3/videos".toList

/-- The request URL of `fetchVideoDuration`. -/
def detailURL (videoID apiKey : List Char) : List Char :=
  videoDetailsURL ++ "?part=contentDetails&id=".toList ++ videoID ++ "&key=".toList ++ apiKey

/-- Embedding of `fetchVideoDuration` against a detail endpoint `get`. -/
def fetchVideoDuration (get : List Char → DetailReply) (apiKey videoID : List Char) :
    GoResult Int :=
  match get (detailURL videoID apiKey) with
  | Except.error err => GoResult.error err
  | Except.ok items =>
    match items with
    | [] => GoResult.error ("no video details found for ID " ++ String.mk videoID)
    | first :: _ => parseISO8601Duration first

/-- What the loop of `main` leaves behind: the total and the identifiers it logged an error
for, in order. -/
structure LoopState where
  totalDuration : Int
  logged : List (List Char)
  deriving DecidableEq, Repr

/-- The loop `for _, videoID := range videoIDs` of `main`, `fetch` standing for
`fetchVideoDuration`: an error is logged and the item skipped, a duration is added to the
total in `int64` arithmetic, a panic ends the run. -/
def sumLoop (fetch : List Char → GoResult Int) : List (List Char) → LoopState →
    GoResult LoopState
  | [], st => GoResult.ret st
  | videoID :: rest, st =>
    match fetch videoID with
    | GoResult.panic msg => GoResult.panic msg
    | GoResult.error _ => sumLoop fetch rest ⟨st.totalDuration, st.logged ++ [videoID]⟩
    | GoResult.ret videoDuration =>
      sumLoop fetch rest ⟨wrap64 (st.totalDuration + videoDuration), st.logged⟩

/-! ## Reference functions

Functions that say in plain terms what the two patterns find and what the report shows; the
theorems below compare the embedding with them. -/

/-- One optional component read by hand: the longest run of digits at the head of `inp`; when
the run is not empty and `unit` follows it, the run and the text after `unit`; otherwise no
digits and `inp` itself. -/
def scanComponent (unit : Char) (inp : List Char) : List Char × List Char :=
  match inp.takeWhile isDigit, inp.dropWhile isDigit with
  | _ :: _, y :: ys => if y = unit then (inp.takeWhile isDigit, ys) else ([], inp)
  | _, _ => ([], inp)

/-- Text after the first occurrence of `PT`, `none` when there is none. -/
def afterPT : List Char → Option (List Char)
  | [] => none
  | c :: cs => if c = 'P' ∧ cs.head? = some 'T' then some cs.tail else afterPT cs

/-- The submatches of the duration pattern for the text `t` that follows the first `PT`. -/
def durationCaptures (t : List Char) : Captures :=
  let h := scanComponent 'H' t
  let m := scanComponent 'M' h.2
  let s := scanComponent 'S' m.2
  ['P' :: 'T' :: consumed t s.2, h.1, m.1, s.1]

/-- Value of a `list` parameter that starts at the head of `url`: after `?list=` or `&list=`,
the text up to the next `&`, `#` or the end. -/
def listValueHere : List Char → Option (List Char)
  | [] => none
  | c :: rest =>
    if isQueryDelim c = true ∧ "list=".toList.isPrefixOf rest = true then
      some ((rest.drop 5).takeWhile (fun x => !(x == '&' || x == '#')))
    else none

/-- Value of the first `list` parameter of `url`. -/
def firstListValue : List Char → Option (List Char)
  | [] => none
  | c :: cs =>
    match listValueHere (c :: cs) with
    | some v => some v
    | none => firstListValue cs

/-- The report `"<H>h <M>m <S>s"` of a whole number `n` of seconds. -/
def hmsOfSeconds (n : Int) : List Char :=
  formatInt (n / 3600) ++ "h ".toList ++ formatInt (n / 60 % 60) ++ "m ".toList
    ++ formatInt (n % 60) ++ "s".toList

/-- The report `"<H>h <M>m <S>s"` with `H` the whole hours in `d`, `M` the whole minutes in `d`
modulo 60 and `S` the whole seconds in `d` modulo 60. -/
def hms (d : Int) : List Char :=
  formatInt (d / Hour) ++ "h ".toList ++ formatInt (d / Minute % 60) ++ "m ".toList
    ++ formatInt (d / Second % 60) ++ "s".toList

/-- The first two pages of the pagination fixture: both carry a continuation token. -/
def fixturePages : List Page :=
  [⟨["v1".toList, "v2".toList], "t1".toList⟩, ⟨["v3".toList], "t2".toList⟩]

/-- The third page of the pagination fixture: no continuation token. -/
def fixtureLastPage : Page := ⟨["v4".toList, "v5".toList], []⟩

/-- The durations of the items whose fetch succeeded, in order. -/
def fetchedDurations (fetch : List Char → GoResult Int) (videoIDs : List (List Char)) :
    List Int :=
  videoIDs.filterMap (fun videoID =>
    match fetch videoID with
    | GoResult.ret d => some d
    | _ => none)

/-- The items whose fetch returned an error, in order. -/
def failedItems (fetch : List Char → GoResult Int) (videoIDs : List (List Char)) :
    List (List Char) :=
  videoIDs.filter (fun videoID =>
    match fetch videoID with
    | GoResult.error _ => true
    | _ => false)

/-- Identifier found by the playlist pattern at the head of `inp`: after `?list=` or `&list=`,
the longest run of characters of `[a-zA-Z0-9_-]`, which must not be empty. -/
def playlistIdHere : List Char → Option (List Char)
  | [] => none
  | c :: rest =>
    if isQueryDelim c = true ∧ "list=".toList.isPrefixOf rest = true
        ∧ (rest.drop 5).takeWhile isIdChar ≠ [] then
      some ((rest.drop 5).takeWhile isIdChar)
    else none

/-- Identifier found by the playlist pattern at the leftmost place where it finds one. -/
def firstPlaylistId : List Char → Option (List Char)
  | [] => none
  | c :: cs =>
    match playlistIdHere (c :: cs) with
    | some v => some v
    | none => firstPlaylistId cs

/-- The value C8 gives a capture: that of the conversion when it succeeds, zero when the
conversion fails or the capture is empty. -/
def zeroOnError (m : List Char) : Int :=
  if m ≠ [] ∧ (Atoi m).2 = none then (Atoi m).1 else 0

/-- Text of one component of a duration string: the decimal numeral of `n` followed by
`unit` when the component is present, nothing when it is absent. -/
def componentText (present : Bool) (n : Nat) (unit : Char) : List Char :=
  if present then formatNat n ++ [unit] else []

/-- The rational number a `Frac` stands for. -/
def Frac.val (x : Frac) : ℚ := (x.num : ℚ) / (x.den : ℚ)

/-! # Theorems -/

/-! ## The matcher -/

theorem orElse_none_right {α : Type} (x : Option α) : x.orElse (fun _ => none) = x := by
  cases x <;> rfl

theorem orElse_of_isSome {α : Type} (x : Option α) (f : Unit → Option α)
    (h : x.isSome = true) : x.orElse f = x := by
  cases x with
  | none => simp at h
  | some v => rfl

/-- A continuation that rejects every input headed by a class character is reached by the
greedy loop only after the whole run. -/
theorem matchStar_of_reject (p : Char → Bool) (k : List Char → Option Captures)
    (hk : ∀ c cs, p c = true → k (c :: cs) = none) (inp : List Char) :
    matchStar p k inp = k (inp.dropWhile p) := by
  induction inp with
  | nil => rfl
  | cons c cs ih =>
    by_cases hc : p c = true
    · simp only [matchStar, hc, if_true, List.dropWhile_cons_of_pos, ih, hk c cs hc,
        orElse_none_right]
    · simp only [matchStar, hc, List.dropWhile_cons_of_neg, Bool.false_eq_true, if_false,
        not_false_eq_true]

/-- A continuation that accepts the text after the whole run is handed exactly that. -/
theorem matchStar_of_accept (p : Char → Bool) (k : List Char → Option Captures)
    (inp : List Char) (hk : (k (inp.dropWhile p)).isSome = true) :
    matchStar p k inp = k (inp.dropWhile p) := by
  induction inp with
  | nil => rfl
  | cons c cs ih =>
    by_cases hc : p c = true
    · simp only [List.dropWhile_cons_of_pos, hc] at hk ⊢
      simp only [matchStar, hc, if_true, ih hk]
      exact orElse_of_isSome _ _ hk
    · simp only [matchStar, hc, List.dropWhile_cons_of_neg, Bool.false_eq_true, if_false,
        not_false_eq_true]

theorem consumed_append (a b : List Char) : consumed (a ++ b) b = a := by
  simp [consumed]

theorem consumed_dropWhile (p : Char → Bool) (inp : List Char) :
    consumed inp (inp.dropWhile p) = inp.takeWhile p := by
  have h := consumed_append (inp.takeWhile p) (inp.dropWhile p)
  rwa [List.takeWhile_append_dropWhile] at h

theorem isDigit_H : isDigit 'H' = false := by decide

theorem isDigit_M : isDigit 'M' = false := by decide

theorem isDigit_S : isDigit 'S' = false := by decide

/-- The optional component `(?:(\d+)X)?` in front of a continuation that always succeeds
finds what `scanComponent` reads. -/
theorem matchRe_componentRe (i : Nat) (unit : Char) (hu : isDigit unit = false)
    (k : List Char → Captures → Option Captures) (hk : ∀ r c, (k r c).isSome = true)
    (inp : List Char) (caps : Captures) :
    matchRe (componentRe i unit) inp caps k =
      k (scanComponent unit inp).2
        (if (scanComponent unit inp).1 = [] then caps
         else caps.set i (scanComponent unit inp).1) := by
  have hne : ∀ c, isDigit c = true → c ≠ unit := by
    intro c hc h
    rw [h, hu] at hc
    exact Bool.false_ne_true hc
  cases inp with
  | nil => simp [componentRe, matchRe, scanComponent]
  | cons x xs =>
    by_cases hx : isDigit x = true
    · simp only [componentRe, matchRe, hx, if_true]
      rw [matchStar_of_reject isDigit _ (fun c cs hc => by simp [hne c hc]) xs]
      have hcons := consumed_dropWhile isDigit (x :: xs)
      simp only [List.dropWhile_cons_of_pos, hx] at hcons
      simp only [scanComponent, List.takeWhile_cons_of_pos, List.dropWhile_cons_of_pos, hx]
      cases hd : List.dropWhile isDigit xs with
      | nil => simp
      | cons y ys =>
        rw [hd] at hcons
        by_cases hy : y = unit
        · simp only [hy, if_true]
          rw [hy] at hcons
          simp only [hcons, List.takeWhile_cons_of_pos, hx]
          simp [orElse_of_isSome _ _ (hk _ _)]
        · simp [hy]
    · simp [componentRe, matchRe, scanComponent, hx]

theorem matchRe_componentRe_isSome (i : Nat) (unit : Char) (hu : isDigit unit = false)
    (k : List Char → Captures → Option Captures) (hk : ∀ r c, (k r c).isSome = true)
    (inp : List Char) (caps : Captures) :
    (matchRe (componentRe i unit) inp caps k).isSome = true := by
  rw [matchRe_componentRe i unit hu k hk]
  exact hk _ _

theorem matchRe_seq (r s : Regex) (inp : List Char) (caps : Captures)
    (k : List Char → Captures → Option Captures) :
    matchRe (Regex.seq r s) inp caps k
      = matchRe r inp caps (fun rest caps1 => matchRe s rest caps1 k) := by
  rw [matchRe]

theorem matchRe_group (i : Nat) (r : Regex) (inp : List Char) (caps : Captures)
    (k : List Char → Captures → Option Captures) :
    matchRe (Regex.group i r) inp caps k
      = matchRe r inp caps (fun rest caps1 => k rest (caps1.set i (consumed inp rest))) := by
  rw [matchRe]

theorem matchRe_lit_cons (c x : Char) (xs : List Char) (caps : Captures)
    (k : List Char → Captures → Option Captures) :
    matchRe (Regex.lit c) (x :: xs) caps k = if x = c then k xs caps else none := by
  rw [matchRe]

theorem matchRe_lit_nil (c : Char) (caps : Captures)
    (k : List Char → Captures → Option Captures) :
    matchRe (Regex.lit c) [] caps k = none := by
  rw [matchRe]

theorem durationRe_eq : durationRe =
    Regex.seq (Regex.lit 'P') (Regex.seq (Regex.lit 'T')
      (Regex.seq (componentRe 1 'H') (Regex.seq (componentRe 2 'M') (componentRe 3 'S')))) :=
  rfl

/-- At a `PT` the duration pattern always matches, with the submatches of
`durationCaptures`. -/
theorem matchHere_durationRe_PT (t : List Char) :
    matchHere durationRe 3 ('P' :: 'T' :: t) = some (durationCaptures t) := by
  have k3 : ∀ (r : List Char) (c : Captures),
      ((fun rest caps1 => some (List.set caps1 0 (consumed ('P' :: 'T' :: t) rest)) :
        List Char → Captures → Option Captures) r c).isSome = true := fun _ _ => rfl
  have k2 := matchRe_componentRe_isSome 3 'S' isDigit_S _ k3
  have k1 := matchRe_componentRe_isSome 2 'M' isDigit_M _ k2
  simp only [matchHere, durationRe_eq, matchRe_seq, matchRe_group, matchRe_lit_cons, if_true]
  rw [matchRe_componentRe 1 'H' isDigit_H _ k1, matchRe_componentRe 2 'M' isDigit_M _ k2,
    matchRe_componentRe 3 'S' isDigit_S _ k3]
  have hlen : ∀ u inp, ((scanComponent u inp).2).length ≤ inp.length := by
    intro u inp
    unfold scanComponent
    split
    · split
      · rename_i y ys _ hd _
        have := (List.dropWhile_sublist (l := inp) isDigit).length_le
        rw [hd] at this
        simp at this ⊢
        omega
      · simp
    · simp
  have hw : consumed ('P' :: 'T' :: t)
      (scanComponent 'S' (scanComponent 'M' (scanComponent 'H' t).2).2).2
      = 'P' :: 'T' :: consumed t
        (scanComponent 'S' (scanComponent 'M' (scanComponent 'H' t).2).2).2 := by
    have l1 := hlen 'H' t
    have l2 := hlen 'M' (scanComponent 'H' t).2
    have l3 := hlen 'S' (scanComponent 'M' (scanComponent 'H' t).2).2
    simp only [consumed, List.length_cons]
    have e : t.length + 1 + 1
        - (scanComponent 'S' (scanComponent 'M' (scanComponent 'H' t).2).2).2.length
        = (t.length
          - (scanComponent 'S' (scanComponent 'M' (scanComponent 'H' t).2).2).2.length) + 1 + 1 := by
      omega
    rw [e]
    rfl
  rw [hw]
  split_ifs with a b c <;> simp [List.replicate, List.set, durationCaptures, *]

/-- Away from a `PT` the duration pattern does not match. -/
theorem matchHere_durationRe_cons (c : Char) (cs : List Char) :
    matchHere durationRe 3 (c :: cs)
      = if c = 'P' ∧ cs.head? = some 'T' then some (durationCaptures cs.tail) else none := by
  by_cases hc : c = 'P'
  · cases cs with
    | nil =>
      simp [matchHere, durationRe_eq, matchRe_seq, matchRe_group, matchRe_lit_cons,
        matchRe_lit_nil, hc]
    | cons y ys =>
      by_cases hy : y = 'T'
      · rw [hc, hy, matchHere_durationRe_PT]
        simp
      · simp [matchHere, durationRe_eq, matchRe_seq, matchRe_group, matchRe_lit_cons, hc, hy]
  · simp [matchHere, durationRe_eq, matchRe_seq, matchRe_group, matchRe_lit_cons, hc]

theorem matchHere_durationRe_nil : matchHere durationRe 3 [] = none := by
  simp [matchHere, durationRe_eq, matchRe_seq, matchRe_group, matchRe_lit_nil]

/-- The leftmost match of the duration pattern is at the first `PT`. -/
theorem findFrom_durationRe (s : List Char) :
    findFrom durationRe 3 s = (afterPT s).map durationCaptures := by
  induction s with
  | nil => simp [findFrom, afterPT, matchHere_durationRe_nil]
  | cons c cs ih =>
    rw [findFrom, matchHere_durationRe_cons, afterPT]
    by_cases h : c = 'P' ∧ cs.head? = some 'T'
    · simp [h]
    · simp only [h, if_false, ih]
      rfl

/-- What `parseISO8601Duration` computes, without the matcher: a panic when the string has no
`PT`, and otherwise the sum built from the three runs of digits read after the first `PT`. -/
theorem parseISO8601Duration_eq (s : List Char) :
    parseISO8601Duration s =
      match afterPT s with
      | none => GoResult.panic "runtime error: index out of range"
      | some t =>
        GoResult.ret (durationOf
          (component (scanComponent 'H' t).1)
          (component (scanComponent 'M' (scanComponent 'H' t).2).1)
          (component (scanComponent 'S'
            (scanComponent 'M' (scanComponent 'H' t).2).2).1)) := by
  unfold parseISO8601Duration FindStringSubmatch
  rw [findFrom_durationRe]
  cases afterPT s with
  | none => rfl
  | some t => rfl

/-! ## Decimal numerals -/

theorem isDigit_digitChar (n : Nat) (h : n < 10) : isDigit (digitChar n) = true := by
  interval_cases n <;> decide

theorem digitChar_value (n : Nat) (h : n < 10) : (digitChar n).toNat - '0'.toNat = n := by
  interval_cases n <;> decide

theorem natDigits_eq (n : Nat) : ∀ (fuel : Nat) (acc : List Char), n < fuel →
    natDigits fuel n acc = formatNat n ++ acc := by
  induction n using Nat.strong_induction_on with
  | _ n ih =>
    intro fuel acc hlt
    cases fuel with
    | zero => omega
    | succ f =>
      unfold formatNat
      simp only [natDigits]
      by_cases h0 : n / 10 = 0
      · simp [h0]
      · have hlt2 : n / 10 < n := Nat.div_lt_self (by omega) (by omega)
        simp only [h0, if_false]
        rw [ih (n / 10) hlt2 f _ (by omega), ih (n / 10) hlt2 n _ hlt2]
        simp

/-- The numeral of `n` is the numeral of `n / 10` followed by the last digit. -/
theorem formatNat_eq (n : Nat) :
    formatNat n = if n / 10 = 0 then [digitChar (n % 10)]
      else formatNat (n / 10) ++ [digitChar (n % 10)] := by
  conv_lhs => unfold formatNat
  simp only [natDigits]
  by_cases h0 : n / 10 = 0
  · simp [h0]
  · have hlt2 : n / 10 < n := Nat.div_lt_self (by omega) (by omega)
    simp only [h0, if_false]
    rw [natDigits_eq (n / 10) n _ hlt2]

theorem formatNat_ne_nil (n : Nat) : formatNat n ≠ [] := by
  rw [formatNat_eq]
  split <;> simp

theorem formatNat_isDigit (n : Nat) : ∀ c ∈ formatNat n, isDigit c = true := by
  induction n using Nat.strong_induction_on with
  | _ n ih =>
    intro c hc
    rw [formatNat_eq] at hc
    have hd := isDigit_digitChar (n % 10) (Nat.mod_lt _ (by omega))
    by_cases h0 : n / 10 = 0
    · simp only [h0, if_true, List.mem_singleton] at hc
      rw [hc]; exact hd
    · simp only [h0, if_false, List.mem_append, List.mem_singleton] at hc
      rcases hc with hc | hc
      · exact ih (n / 10) (Nat.div_lt_self (by omega) (by omega)) c hc
      · rw [hc]; exact hd

theorem digitsValue_append_singleton (ds : List Char) (c : Char) (hc : isDigit c = true) :
    ∀ a v, digitsValue ds a = some v →
      digitsValue (ds ++ [c]) a = some (v * 10 + (c.toNat - '0'.toNat)) := by
  induction ds with
  | nil =>
    intro a v h
    simp only [digitsValue, Option.some.injEq] at h
    simp [digitsValue, hc, h]
  | cons d ds ih =>
    intro a v h
    by_cases hd : isDigit d = true
    · simp only [digitsValue, hd, if_true] at h
      simp only [List.cons_append, digitsValue, hd, if_true]
      exact ih _ _ h
    · simp [digitsValue, hd] at h

/-- Reading the numeral of `n` back gives `n`. -/
theorem digitsValue_formatNat (n : Nat) : digitsValue (formatNat n) 0 = some n := by
  induction n using Nat.strong_induction_on with
  | _ n ih =>
    rw [formatNat_eq]
    have hlt := Nat.mod_lt n (show 10 > 0 by omega)
    have hd := isDigit_digitChar (n % 10) hlt
    have hv := digitChar_value (n % 10) hlt
    by_cases h0 : n / 10 = 0
    · simp only [h0, if_true, digitsValue, hd, hv]
      congr 1
      omega
    · simp only [h0, if_false]
      rw [digitsValue_append_singleton _ _ hd 0 (n / 10)
        (ih (n / 10) (Nat.div_lt_self (by omega) (by omega))), hv]
      congr 1
      omega

/-! ## `strconv.Atoi` on a run of digits -/

theorem digitsValue_of_digits (ds : List Char) (hd : ∀ c ∈ ds, isDigit c = true) :
    ∀ a, ∃ v, digitsValue ds a = some v := by
  induction ds with
  | nil => intro a; exact ⟨a, rfl⟩
  | cons d ds ih =>
    intro a
    have h1 : isDigit d = true := hd d (List.mem_cons_self _ _)
    simp only [digitsValue, h1, if_true]
    exact ih (fun c hc => hd c (List.mem_cons_of_mem _ hc)) _

/-- On a non-empty run of digits `strconv.Atoi` has no sign to pick off. -/
theorem Atoi_of_digits (ds : List Char) (hne : ds ≠ []) (hd : ∀ c ∈ ds, isDigit c = true) :
    Atoi ds = atoiMagnitude false ds := by
  cases ds with
  | nil => exact absurd rfl hne
  | cons c cs =>
    have h1 : isDigit c = true := hd c (List.mem_cons_self _ _)
    have hp : c ≠ '+' := by
      intro h; rw [h] at h1; exact absurd h1 (by decide)
    have hm : c ≠ '-' := by
      intro h; rw [h] at h1; exact absurd h1 (by decide)
    unfold Atoi
    split
    · rename_i heq; exact absurd heq (by simp)
    · rename_i heq
      simp only [List.cons.injEq] at heq
      exact absurd heq.1 hp
    · rename_i heq
      simp only [List.cons.injEq] at heq
      exact absurd heq.1 hm
    · rfl

/-- On a non-empty run of digits of value `v`, `strconv.Atoi` yields `v` without an error
when `v` fits, and the largest `int64` with a range error when it does not. -/
theorem Atoi_digits_value (ds : List Char) (hne : ds ≠ []) (v : Nat)
    (hv : digitsValue ds 0 = some v) (hd : ∀ c ∈ ds, isDigit c = true) :
    Atoi ds = if (2 : Int) ^ 63 ≤ v then (maxInt64, some AtoiError.outOfRange)
      else ((v : Int), none) := by
  rw [Atoi_of_digits ds hne hd]
  unfold atoiMagnitude
  simp only [hne, if_false, hv]
  by_cases hb : (2 : Int) ^ 63 ≤ v
  · simp [hb]
  · simp [hb]

theorem component_nil : component [] = 0 := by
  simp [component]

theorem component_formatNat (n : Nat) (hn : (n : Int) < 2 ^ 63) :
    component (formatNat n) = n := by
  unfold component
  rw [if_pos (formatNat_ne_nil n),
    Atoi_digits_value _ (formatNat_ne_nil n) n (digitsValue_formatNat n) (formatNat_isDigit n),
    if_neg (not_le.mpr hn)]

/-- The value kept from a run of digits is never negative, and it is the largest `int64`
exactly when the conversion fails. -/
theorem component_of_digits (ds : List Char) (hd : ∀ c ∈ ds, isDigit c = true) :
    0 ≤ component ds ∧ component ds ≤ maxInt64 ∧
      (ds ≠ [] → (Atoi ds).2 ≠ none →
        component ds = maxInt64 ∧ (Atoi ds).2 = some AtoiError.outOfRange) := by
  by_cases hne : ds = []
  · subst hne
    refine ⟨by simp [component], by simp [component, maxInt64], fun h => absurd rfl h⟩
  · obtain ⟨v, hv⟩ := digitsValue_of_digits ds hd 0
    have hA := Atoi_digits_value ds hne v hv hd
    unfold component
    rw [if_pos hne, hA]
    by_cases hb : (2 : Int) ^ 63 ≤ v
    · rw [if_pos hb]
      simp [maxInt64]
    · rw [if_neg hb]
      refine ⟨by positivity, ?_, fun _ h => absurd rfl h⟩
      simp only [maxInt64]
      omega

/-! ## Reading the components -/

/-- The run of digits a component captures consists of digits. -/
theorem scanComponent_isDigit (unit : Char) (inp : List Char) :
    ∀ c ∈ (scanComponent unit inp).1, isDigit c = true := by
  intro c hc
  unfold scanComponent at hc
  split at hc
  · split at hc
    · exact List.mem_takeWhile_imp hc
    · simp at hc
  · simp at hc

/-- A run of digits `ds` followed by a text that does not start with a digit: the component
is read when `ds` is not empty and the text starts with `unit`. -/
theorem scanComponent_append (unit : Char) (ds rest : List Char)
    (hd : ∀ c ∈ ds, isDigit c = true) (hr : ∀ c, rest.head? = some c → isDigit c = false) :
    scanComponent unit (ds ++ rest) =
      if ds ≠ [] ∧ rest.head? = some unit then (ds, rest.tail) else ([], ds ++ rest) := by
  have ht : List.takeWhile isDigit rest = [] := by
    cases rest with
    | nil => rfl
    | cons y ys => simp [hr y rfl]
  have hdr : List.dropWhile isDigit rest = rest := by
    cases rest with
    | nil => rfl
    | cons y ys => simp [hr y rfl]
  unfold scanComponent
  rw [List.takeWhile_append_of_pos hd, List.dropWhile_append_of_pos hd, ht, hdr,
    List.append_nil]
  cases ds with
  | nil =>
    cases rest <;> simp
  | cons d ds' =>
    cases rest with
    | nil => simp
    | cons y ys =>
      by_cases hy : y = unit
      · simp [hy]
      · simp [hy]

theorem scanComponent_nil (unit : Char) : scanComponent unit [] = ([], []) := rfl

/-- A numeral followed by the unit letter is read as a component. -/
theorem scanComponent_hit (unit : Char) (hu : isDigit unit = false) (n : Nat)
    (rest : List Char) :
    scanComponent unit (formatNat n ++ unit :: rest) = (formatNat n, rest) := by
  rw [scanComponent_append unit (formatNat n) (unit :: rest) (formatNat_isDigit n)
    (fun c hc => by
      simp only [List.head?_cons, Option.some.injEq] at hc
      rw [← hc]; exact hu)]
  simp [formatNat_ne_nil]

/-- A numeral followed by another letter is not read as a component. -/
theorem scanComponent_miss (unit other : Char) (ho : isDigit other = false)
    (hne : other ≠ unit) (n : Nat) (rest : List Char) :
    scanComponent unit (formatNat n ++ other :: rest)
      = ([], formatNat n ++ other :: rest) := by
  rw [scanComponent_append unit (formatNat n) (other :: rest) (formatNat_isDigit n)
    (fun c hc => by
      simp only [List.head?_cons, Option.some.injEq] at hc
      rw [← hc]; exact ho)]
  simp [hne]

theorem afterPT_PT (t : List Char) : afterPT ("PT".toList ++ t) = some t := by
  show afterPT ('P' :: 'T' :: t) = some t
  simp [afterPT]

/-- The digits read after `PT` in a well-formed duration string. -/
theorem scan_wellFormed (h m s : Nat) (ph pm ps : Bool) :
    let t := componentText ph h 'H' ++ componentText pm m 'M' ++ componentText ps s 'S'
    (scanComponent 'H' t).1 = (if ph then formatNat h else []) ∧
    (scanComponent 'M' (scanComponent 'H' t).2).1 = (if pm then formatNat m else []) ∧
    (scanComponent 'S' (scanComponent 'M' (scanComponent 'H' t).2).2).1
      = (if ps then formatNat s else []) := by
  have hH := scanComponent_hit 'H' isDigit_H
  have hM := scanComponent_hit 'M' isDigit_M
  have hS := scanComponent_hit 'S' isDigit_S
  have mHM := scanComponent_miss 'H' 'M' isDigit_M (by decide)
  have mHS := scanComponent_miss 'H' 'S' isDigit_S (by decide)
  have mMS := scanComponent_miss 'M' 'S' isDigit_S (by decide)
  cases ph <;> cases pm <;> cases ps <;>
    simp [componentText, scanComponent_nil, hH, hM, hS, mHM, mHS, mMS]

/-- The sum of the three products when nothing overflows. -/
theorem durationOf_exact (a b c : Int) (ha : 0 ≤ a) (hb : 0 ≤ b) (hc : 0 ≤ c)
    (hfit : (3600 * a + 60 * b + c) * 1000000000 < 2 ^ 63) :
    durationOf a b c = (3600 * a + 60 * b + c) * Second := by
  have hw : ∀ x : Int, 0 ≤ x → x < 2 ^ 63 → wrap64 x = x := by
    intro x h0 h1
    unfold wrap64
    omega
  unfold durationOf Hour Minute Second
  norm_num at hfit ⊢
  rw [hw (a * 3600000000000) (by omega) (by omega), hw (b * 60000000000) (by omega) (by omega),
    hw (c * 1000000000) (by omega) (by omega),
    hw (a * 3600000000000 + b * 60000000000) (by omega) (by omega),
    hw _ (by omega) (by omega)]
  ring

/-! ## Claims about `parseISO8601Duration` -/

/-- C1.  For natural numbers `h`, `m`, `s` and every choice of which of the three components
are present, `parseISO8601Duration` applied to `PT` followed by the present components, in
the order `<h>H`, `<m>M`, `<s>S`, returns a nil error and exactly `3600*h + 60*m + s`
seconds, an absent component counting as zero, provided that this number of seconds,
expressed in nanoseconds, fits in an `int64`. -/
theorem parseISO8601Duration_wellFormed (h m s : Nat) (ph pm ps : Bool)
    (hfit : (3600 * (if ph then (h : Int) else 0) + 60 * (if pm then (m : Int) else 0)
      + (if ps then (s : Int) else 0)) * 1000000000 < 2 ^ 63) :
    parseISO8601Duration ("PT".toList ++
        (componentText ph h 'H' ++ componentText pm m 'M' ++ componentText ps s 'S'))
      = GoResult.ret ((3600 * (if ph then (h : Int) else 0) + 60 * (if pm then (m : Int) else 0)
          + (if ps then (s : Int) else 0)) * Second) := by
  have hc : ∀ (p : Bool) (n : Nat), ((if p then (n : Int) else 0) < 2 ^ 63) →
      component (if p then formatNat n else []) = (if p then (n : Int) else 0) := by
    intro p n hn
    cases p with
    | false => exact component_nil
    | true => exact component_formatNat n (by simpa using hn)
  have h0 : ∀ (p : Bool) (n : Nat), 0 ≤ (if p then (n : Int) else 0) := by
    intro p n
    cases p <;> simp
  have a0 := h0 ph h
  have b0 := h0 pm m
  have c0 := h0 ps s
  obtain ⟨e1, e2, e3⟩ := scan_wellFormed h m s ph pm ps
  rw [parseISO8601Duration_eq, afterPT_PT]
  simp only [e1, e2, e3]
  rw [hc ph h (by omega), hc pm m (by omega), hc ps s (by omega)]
  exact congrArg GoResult.ret (durationOf_exact _ _ _ a0 b0 c0 hfit)

/-- The fixtures of C1: `PT1H2M3S` is 3723 s, `PT45M` is 2700 s, `PT` is 0 s and `PT30S` is
30 s. -/
theorem parseISO8601Duration_wellFormed_witness :
    parseISO8601Duration "PT1H2M3S".toList = GoResult.ret (3723 * Second) ∧
    parseISO8601Duration "PT45M".toList = GoResult.ret (2700 * Second) ∧
    parseISO8601Duration "PT".toList = GoResult.ret (0 * Second) ∧
    parseISO8601Duration "PT30S".toList = GoResult.ret (30 * Second) :=
  ⟨parseISO8601Duration_wellFormed 1 2 3 true true true (by decide),
   parseISO8601Duration_wellFormed 0 45 0 false true false (by decide),
   parseISO8601Duration_wellFormed 0 0 0 false false false (by decide),
   parseISO8601Duration_wellFormed 0 0 30 false false true (by decide)⟩

/-- The three captures of a match of the duration pattern are runs of digits. -/
theorem captures_isDigit (str w m1 m2 m3 : List Char)
    (hmatch : FindStringSubmatch durationRe 3 str = [w, m1, m2, m3]) :
    (∀ c ∈ m1, isDigit c = true) ∧ (∀ c ∈ m2, isDigit c = true) ∧
      (∀ c ∈ m3, isDigit c = true) := by
  unfold FindStringSubmatch at hmatch
  rw [findFrom_durationRe] at hmatch
  cases ha : afterPT str with
  | none => rw [ha] at hmatch; simp at hmatch
  | some t =>
    rw [ha] at hmatch
    simp only [Option.map_some', durationCaptures, List.cons.injEq, and_true] at hmatch
    obtain ⟨_, h1, h2, h3⟩ := hmatch
    rw [← h1, ← h2, ← h3]
    exact ⟨scanComponent_isDigit _ _, scanComponent_isDigit _ _, scanComponent_isDigit _ _⟩

theorem parseISO8601Duration_of_match (str w m1 m2 m3 : List Char)
    (hmatch : FindStringSubmatch durationRe 3 str = [w, m1, m2, m3]) :
    parseISO8601Duration str
      = GoResult.ret (durationOf (component m1) (component m2) (component m3)) := by
  unfold parseISO8601Duration
  simp only [hmatch]
  rfl

/-- C2 fails on the code.  A duration string without `PT` (the detail endpoint delivers `P0D`
for a live broadcast) does not match the pattern, `FindStringSubmatch` returns nil and
`matches[1]` is a run-time panic: no error value reaches the caller, and the loop of `main`
is left by the panic.  The same holds for the empty string and for `P1DT2H3M4S`. -/
theorem parseISO8601Duration_panics_without_PT :
    parseISO8601Duration "P0D".toList = GoResult.panic "runtime error: index out of range" ∧
    parseISO8601Duration "".toList = GoResult.panic "runtime error: index out of range" ∧
    parseISO8601Duration "P1DT2H3M4S".toList = GoResult.panic "runtime error: index out of range" ∧
    (∀ apiKey videoID : List Char,
      fetchVideoDuration (fun _ => Except.ok ["P0D".toList]) apiKey videoID
        = GoResult.panic "runtime error: index out of range") ∧
    (∀ (apiKey videoID : List Char) (rest : List (List Char)) (st : LoopState),
      sumLoop (fetchVideoDuration (fun _ => Except.ok ["P0D".toList]) apiKey)
        (videoID :: rest) st = GoResult.panic "runtime error: index out of range") := by
  have h : parseISO8601Duration "P0D".toList = GoResult.panic "runtime error: index out of range" := by
    decide
  refine ⟨h, by decide, by decide, ?_, ?_⟩
  · intro apiKey videoID
    simp only [fetchVideoDuration, h]
  · intro apiKey videoID rest st
    simp only [sumLoop, fetchVideoDuration, h]

/-- C8 fails on the code.  In `PT9223372036854775808H5M` the hours do not fit an `int64`:
`strconv.Atoi` reports a range error and returns `2^63 - 1` with it, the source keeps that
value, and the result is minus 55 minutes, not the 5 minutes of the convertible
component. -/
theorem parseISO8601Duration_unconvertible_not_zero :
    FindStringSubmatch durationRe 3 "PT9223372036854775808H5M".toList
      = ["PT9223372036854775808H5M".toList, "9223372036854775808".toList, "5".toList, []] ∧
    Atoi "9223372036854775808".toList = (maxInt64, some AtoiError.outOfRange) ∧
    parseISO8601Duration "PT9223372036854775808H5M".toList = GoResult.ret (-(55 * Minute)) ∧
    parseISO8601Duration "PT9223372036854775808H5M".toList
      ≠ GoResult.ret (durationOf (zeroOnError "9223372036854775808".toList)
          (zeroOnError "5".toList) (zeroOnError [])) ∧
    durationOf (zeroOnError "9223372036854775808".toList) (zeroOnError "5".toList)
      (zeroOnError []) = 5 * Minute := by
  refine ⟨by decide, by decide, by decide, by decide, by decide⟩

/-- C8 as amended.  For every duration string matched by the pattern,
`parseISO8601Duration` returns a nil error and the `int64` sum of the three products, each
component being the value `strconv.Atoi` returns; a captured run of digits that cannot be
converted is a run too long for an `int64`, the error is a range error, and the component is
`2^63 - 1`, not zero. -/
theorem parseISO8601Duration_unconvertible (str w m1 m2 m3 : List Char)
    (hmatch : FindStringSubmatch durationRe 3 str = [w, m1, m2, m3]) :
    parseISO8601Duration str
      = GoResult.ret (durationOf (component m1) (component m2) (component m3)) ∧
    ∀ m ∈ [m1, m2, m3], m ≠ [] → (Atoi m).2 ≠ none →
      (Atoi m).2 = some AtoiError.outOfRange ∧ component m = maxInt64 := by
  obtain ⟨d1, d2, d3⟩ := captures_isDigit str w m1 m2 m3 hmatch
  refine ⟨parseISO8601Duration_of_match str w m1 m2 m3 hmatch, ?_⟩
  intro m hm hne herr
  have hd : ∀ c ∈ m, isDigit c = true := by
    simp only [List.mem_cons, List.mem_singleton, List.not_mem_nil, or_false] at hm
    rcases hm with h | h | h <;> rw [h] <;> assumption
  have h := (component_of_digits m hd).2.2 hne herr
  exact ⟨h.2, h.1⟩

/-- The amended C8 at `PT9223372036854775808H5M`. -/
theorem parseISO8601Duration_unconvertible_witness :
    parseISO8601Duration "PT9223372036854775808H5M".toList
      = GoResult.ret (durationOf (component "9223372036854775808".toList)
          (component "5".toList) (component [])) ∧
    ∀ m ∈ ["9223372036854775808".toList, "5".toList, []], m ≠ [] → (Atoi m).2 ≠ none →
      (Atoi m).2 = some AtoiError.outOfRange ∧ component m = maxInt64 :=
  parseISO8601Duration_unconvertible "PT9223372036854775808H5M".toList
    "PT9223372036854775808H5M".toList "9223372036854775808".toList "5".toList [] (by decide)

/-- C9 fails on the code.  `PT2562048H` is 2562048 hours, more than `2^63 - 1` nanoseconds:
the product wraps around and the duration returned is negative. -/
theorem parseISO8601Duration_negative :
    parseISO8601Duration "PT2562048H".toList = GoResult.ret (-9223371273709551616) ∧
    ¬ ((0 : Int) ≤ -9223371273709551616) := by
  refine ⟨by decide, by decide⟩

/-- C9 as amended.  On every input string on which `parseISO8601Duration` returns a
duration, that duration is greater than or equal to zero provided the exact total of the
converted components, `3600*hours + 60*minutes + seconds` seconds, is below `2^63`
nanoseconds, so that the 64-bit products and their sum do not wrap around; it is then that
total. -/
theorem parseISO8601Duration_nonneg (str w m1 m2 m3 : List Char) (d : Int)
    (hmatch : FindStringSubmatch durationRe 3 str = [w, m1, m2, m3])
    (hfit : (3600 * component m1 + 60 * component m2 + component m3) * 1000000000 < 2 ^ 63)
    (hret : parseISO8601Duration str = GoResult.ret d) :
    0 ≤ d ∧ d = (3600 * component m1 + 60 * component m2 + component m3) * Second := by
  obtain ⟨d1, d2, d3⟩ := captures_isDigit str w m1 m2 m3 hmatch
  have a0 := (component_of_digits m1 d1).1
  have b0 := (component_of_digits m2 d2).1
  have c0 := (component_of_digits m3 d3).1
  rw [parseISO8601Duration_of_match str w m1 m2 m3 hmatch,
    durationOf_exact _ _ _ a0 b0 c0 hfit] at hret
  have hd : d = (3600 * component m1 + 60 * component m2 + component m3) * Second :=
    (GoResult.ret.inj hret).symm
  refine ⟨?_, hd⟩
  rw [hd]
  unfold Second
  positivity

/-- The amended C9 at `PT1H2M3S`. -/
theorem parseISO8601Duration_nonneg_witness :
    (0 : Int) ≤ 3723000000000 ∧
    (3723000000000 : Int) = (3600 * component "1".toList + 60 * component "2".toList
      + component "3".toList) * Second :=
  parseISO8601Duration_nonneg "PT1H2M3S".toList "PT1H2M3S".toList "1".toList "2".toList
    "3".toList 3723000000000 (by decide) (by decide) (by decide)

/-! ## Claims about `extractPlaylistID` -/

theorem matchRe_litThen (lits : List Char) (r : Regex) (caps : Captures)
    (k : List Char → Captures → Option Captures) : ∀ inp : List Char,
    matchRe (litThen lits r) inp caps k
      = if lits.isPrefixOf inp = true then matchRe r (inp.drop lits.length) caps k
        else none := by
  induction lits with
  | nil => intro inp; simp [litThen]
  | cons l ls ih =>
    intro inp
    cases inp with
    | nil => simp [litThen, matchRe_seq, matchRe_lit_nil]
    | cons x xs =>
      simp only [litThen, matchRe_seq, matchRe_lit_cons, ih, List.isPrefixOf,
        List.length_cons, List.drop_succ_cons, Bool.and_eq_true, beq_iff_eq]
      by_cases hx : x = l
      · simp [hx]
      · have hx2 : ¬ l = x := fun h => hx h.symm
        simp [hx, hx2]

theorem matchRe_many1_accept (p : Char → Bool) (inp : List Char) (caps : Captures)
    (k : List Char → Captures → Option Captures) (hk : ∀ r c, (k r c).isSome = true) :
    matchRe (Regex.many1 p) inp caps k
      = if inp.takeWhile p ≠ [] then k (inp.dropWhile p) caps else none := by
  cases inp with
  | nil => simp [matchRe]
  | cons x xs =>
    by_cases hx : p x = true
    · simp only [matchRe, hx, if_true]
      rw [matchStar_of_accept p _ xs (hk _ _)]
      simp [hx]
    · simp [matchRe, hx]

/-- What the playlist pattern finds at the head of the input. -/
theorem matchHere_playlistRe (inp : List Char) :
    matchHere playlistRe 1 inp
      = (playlistIdHere inp).map
          (fun v => [consumed inp ((inp.drop 6).dropWhile isIdChar), v]) := by
  cases inp with
  | nil => simp [matchHere, playlistRe, matchRe_group, matchRe_seq, matchRe, playlistIdHere]
  | cons c rest =>
    have hlen : "list=".toList.length = 5 := rfl
    simp only [matchHere, playlistRe, matchRe_group, matchRe_seq, matchRe_litThen, hlen]
    rw [matchRe]
    simp only [playlistIdHere]
    by_cases hc : isQueryDelim c = true
    · by_cases hp : "list=".toList.isPrefixOf rest = true
      · simp only [hc, hp, if_true, true_and]
        rw [matchRe_many1_accept isIdChar _ _ _ (by intro _ _; rfl)]
        by_cases ht : List.takeWhile isIdChar (List.drop 5 rest) = []
        · simp [ht]
        · simp only [ne_eq, ht, not_false_eq_true, if_true, Option.map_some',
            Option.some.injEq]
          rw [consumed_dropWhile]
          simp [List.replicate, List.set]
      · simp only [hc, hp, if_true, true_and, false_and, if_false, Bool.false_eq_true]
        rfl
    · simp [hc]

theorem findFrom_playlistRe (url : List Char) :
    (findFrom playlistRe 1 url).map (fun caps => caps.getD 1 []) = firstPlaylistId url ∧
    ∀ caps, findFrom playlistRe 1 url = some caps → caps.length = 2 := by
  induction url with
  | nil =>
    simp [findFrom, matchHere_playlistRe, playlistIdHere, firstPlaylistId]
  | cons c cs ih =>
    rw [findFrom, matchHere_playlistRe, firstPlaylistId]
    cases hh : playlistIdHere (c :: cs) with
    | none => simpa using ih
    | some v => simp

/-- What `extractPlaylistID` computes, without the matcher. -/
theorem extractPlaylistID_eq (url : List Char) :
    extractPlaylistID url = (firstPlaylistId url).getD [] := by
  obtain ⟨h1, h2⟩ := findFrom_playlistRe url
  unfold extractPlaylistID FindStringSubmatch
  rw [← h1]
  cases hf : findFrom playlistRe 1 url with
  | none => simp
  | some caps => simp [h2 caps hf]

theorem firstPlaylistId_none (url : List Char) (h : ¬ ("list=".toList <:+: url)) :
    firstPlaylistId url = none := by
  induction url with
  | nil => rfl
  | cons c cs ih =>
    have hcs : ¬ ("list=".toList <:+: cs) := fun hi => h (hi.trans (List.suffix_cons c cs).isInfix)
    have hp : ¬ ("list=".toList.isPrefixOf cs = true) := by
      intro hpre
      apply h
      have h1 : "list=".toList <+: cs := List.isPrefixOf_iff_prefix.mp hpre
      exact h1.isInfix.trans (List.suffix_cons c cs).isInfix
    rw [firstPlaylistId]
    have hn : playlistIdHere (c :: cs) = none := by
      simp only [playlistIdHere]
      rw [if_neg]
      intro h3
      exact hp h3.2.1
    rw [hn]
    exact ih hcs

/-- C10.  For every URL that does not contain the token `list=`, `extractPlaylistID` returns
the empty string. -/
theorem extractPlaylistID_no_token (url : List Char) (h : ¬ ("list=".toList <:+: url)) :
    extractPlaylistID url = [] := by
  rw [extractPlaylistID_eq, firstPlaylistId_none url h]
  rfl

/-- C10 at a URL without `list=`. -/
theorem extractPlaylistID_no_token_witness :
    extractPlaylistID "https://www.youtube.com/watch?v=dQw4w9WgXcQ&t=1".toList = [] :=
  extractPlaylistID_no_token "https://www.youtube.com/watch?v=dQw4w9WgXcQ&t=1".toList
    (by decide)

theorem takeWhile_eq_of_forall (p q : Char → Bool) (hpq : ∀ x, p x = true → q x = true) :
    ∀ w : List Char, (∀ x ∈ w.takeWhile q, p x = true) → w.takeWhile p = w.takeWhile q := by
  intro w
  induction w with
  | nil => intro _; rfl
  | cons y ys ih =>
    intro h
    by_cases hq : q y = true
    · have hp : p y = true := h y (by simp [List.takeWhile_cons, hq])
      rw [List.takeWhile_cons_of_pos hp, List.takeWhile_cons_of_pos hq]
      rw [ih (fun x hx => h x (by simp [List.takeWhile_cons, hq, hx]))]
    · have hp : ¬ p y = true := fun hp => hq (hpq y hp)
      rw [List.takeWhile_cons_of_neg hp, List.takeWhile_cons_of_neg hq]

theorem isIdChar_not_delim (x : Char) (h : isIdChar x = true) :
    (!(x == '&' || x == '#')) = true := by
  by_cases h1 : x = '&'
  · rw [h1] at h; exact absurd h (by decide)
  · by_cases h2 : x = '#'
    · rw [h2] at h; exact absurd h (by decide)
    · simp [h1, h2]

/-- C3 fails on the code.  In `...playlist?list=PL%5Fabc&index=2` the value of the `list`
parameter is `PL%5Fabc`, and `extractPlaylistID` returns `PL`: the pattern stops at the first
character outside `[a-zA-Z0-9_-]`. -/
theorem extractPlaylistID_not_whole_value :
    firstListValue "https://www.youtube.com/playlist?list=PL%5Fabc&index=2".toList
      = some "PL%5Fabc".toList ∧
    extractPlaylistID "https://www.youtube.com/playlist?list=PL%5Fabc&index=2".toList
      = "PL".toList ∧
    extractPlaylistID "https://www.youtube.com/playlist?list=PL%5Fabc&index=2".toList
      ≠ "PL%5Fabc".toList := by
  refine ⟨by decide, by decide, by decide⟩

/-- C3 as amended.  For every URL and every identifier `ABC`, if the URL contains `?list=ABC`
or `&list=ABC` where `ABC` is the whole value of the first such `list` parameter (the text
after `list=` up to the next `&`, `#` or the end of the string), and `ABC` is not empty and
made of the characters `a-z`, `A-Z`, `0-9`, `_` and `-` only, then `extractPlaylistID`
returns exactly `ABC`. -/
theorem extractPlaylistID_list_value (url abc : List Char)
    (hval : firstListValue url = some abc) (hne : abc ≠ [])
    (hid : ∀ c ∈ abc, isIdChar c = true) :
    extractPlaylistID url = abc := by
  rw [extractPlaylistID_eq]
  have key : firstPlaylistId url = some abc := by
    induction url with
    | nil => simp [firstListValue] at hval
    | cons c cs ih =>
      rw [firstListValue] at hval
      rw [firstPlaylistId]
      by_cases hh : isQueryDelim c = true ∧ "list=".toList.isPrefixOf cs = true
      · simp only [listValueHere, hh, and_self, if_true, Option.some.injEq] at hval
        have ht : List.takeWhile isIdChar (List.drop 5 cs) = abc := by
          rw [takeWhile_eq_of_forall isIdChar _ isIdChar_not_delim (List.drop 5 cs)
            (by rw [hval]; exact hid), hval]
        simp only [playlistIdHere, hh, and_self, true_and, ht, ne_eq, hne,
          not_false_eq_true, if_true]
      · have h1 : listValueHere (c :: cs) = none := by
          simp only [listValueHere, hh, if_false]
        have h2 : playlistIdHere (c :: cs) = none := by
          simp only [playlistIdHere]
          rw [if_neg]
          intro h3
          exact hh ⟨h3.1, h3.2.1⟩
        rw [h1] at hval
        rw [h2]
        exact ih hval
  rw [key]
  rfl

/-- The amended C3 at a playlist URL. -/
theorem extractPlaylistID_list_value_witness :
    extractPlaylistID
        "https://www.youtube.com/playlist?list=PLx0sYbCqOb8TBPRdmBHs5Iftvv9TPboYG&index=2".toList
      = "PLx0sYbCqOb8TBPRdmBHs5Iftvv9TPboYG".toList :=
  extractPlaylistID_list_value
    "https://www.youtube.com/playlist?list=PLx0sYbCqOb8TBPRdmBHs5Iftvv9TPboYG&index=2".toList
    "PLx0sYbCqOb8TBPRdmBHs5Iftvv9TPboYG".toList (by decide) (by decide) (by decide)

/-! ## The loop of `main` -/

theorem wrap64_add_left (a b : Int) : wrap64 (wrap64 a + b) = wrap64 (a + b) := by
  unfold wrap64
  omega

theorem wrap64_of_fits (x : Int) (h1 : minInt64 ≤ x) (h2 : x ≤ maxInt64) : wrap64 x = x := by
  unfold wrap64
  unfold minInt64 at h1
  unfold maxInt64 at h2
  omega

theorem sumLoop_eq (fetch : List Char → GoResult Int) (videoIDs : List (List Char))
    (hnp : ∀ videoID ∈ videoIDs, (fetch videoID).isPanic = false) :
    ∀ total logged,
      sumLoop fetch videoIDs ⟨wrap64 total, logged⟩
        = GoResult.ret ⟨wrap64 (total + (fetchedDurations fetch videoIDs).sum),
            logged ++ failedItems fetch videoIDs⟩ := by
  induction videoIDs with
  | nil =>
    intro total logged
    simp [sumLoop, fetchedDurations, failedItems]
  | cons v vs ih =>
    intro total logged
    have hvs : ∀ videoID ∈ vs, (fetch videoID).isPanic = false :=
      fun x hx => hnp x (List.mem_cons_of_mem _ hx)
    have hv := hnp v (List.mem_cons_self _ _)
    cases hf : fetch v with
    | panic msg =>
      rw [hf] at hv
      exact absurd hv (by simp [GoResult.isPanic])
    | error msg =>
      simp only [sumLoop, hf, fetchedDurations, failedItems, List.filterMap_cons,
        List.filter_cons, if_true]
      have := ih hvs total (logged ++ [v])
      simp only [fetchedDurations, failedItems] at this
      rw [this]
      simp
    | ret d =>
      simp only [sumLoop, hf, fetchedDurations, failedItems, List.filterMap_cons,
        List.filter_cons, List.sum_cons]
      have := ih hvs (wrap64 total + d) logged
      simp only [fetchedDurations, failedItems] at this
      rw [this, add_assoc (wrap64 total), wrap64_add_left]
      simp [add_assoc]

/-- C5.  For every sequence of item identifiers and every outcome of the per-item fetch, each
a duration or an error, the loop of `main` ends with a total equal to the sum of the
durations of exactly the items whose fetch succeeded, and has logged exactly the failing
items: a failing item contributes nothing and the items after it are still processed.  The
sum is that of `time.Duration`, an `int64`: it is the exact sum whenever the exact sum fits
in an `int64`. -/
theorem sumLoop_skips_failures (fetch : List Char → GoResult Int)
    (videoIDs : List (List Char))
    (hnp : ∀ videoID ∈ videoIDs, (fetch videoID).isPanic = false) :
    sumLoop fetch videoIDs ⟨0, []⟩
      = GoResult.ret ⟨wrap64 (fetchedDurations fetch videoIDs).sum,
          failedItems fetch videoIDs⟩ ∧
    (minInt64 ≤ (fetchedDurations fetch videoIDs).sum →
      (fetchedDurations fetch videoIDs).sum ≤ maxInt64 →
      sumLoop fetch videoIDs ⟨0, []⟩
        = GoResult.ret ⟨(fetchedDurations fetch videoIDs).sum,
            failedItems fetch videoIDs⟩) := by
  have h := sumLoop_eq fetch videoIDs hnp 0 []
  have h0 : wrap64 0 = 0 := by decide
  rw [h0] at h
  simp only [zero_add, List.nil_append] at h
  refine ⟨h, fun h1 h2 => ?_⟩
  rw [h, wrap64_of_fits _ h1 h2]

/-- C5 on five items of which the third fails: the total is the sum of the other four. -/
theorem sumLoop_skips_failures_witness :
    sumLoop (fun videoID =>
        if videoID = "c".toList then GoResult.error "no video details found for ID c"
        else GoResult.ret (60 * Second))
      ["a".toList, "b".toList, "c".toList, "d".toList, "e".toList] ⟨0, []⟩
      = GoResult.ret ⟨240 * Second, ["c".toList]⟩ :=
  (sumLoop_skips_failures (fun videoID =>
        if videoID = "c".toList then GoResult.error "no video details found for ID c"
        else GoResult.ret (60 * Second))
      ["a".toList, "b".toList, "c".toList, "d".toList, "e".toList] (by decide)).2
    (by decide) (by decide)

/-! ## Pagination -/

theorem fetchLoop_servePages (apiKey playlistID : List Char) (last : Page)
    (hlast : last.nextPageToken = []) :
    ∀ (pages : List Page), (∀ p ∈ pages, p.nextPageToken ≠ []) →
    ∀ (fuel : Nat), pages.length + 1 ≤ fuel →
    ∀ (token : List Char) (videoIDs requests : List (List Char)),
      fetchLoop servePages apiKey playlistID fuel (pages ++ [last]) token videoIDs requests
        = some ⟨GoResult.ret (videoIDs ++ ((pages ++ [last]).map Page.items).flatten),
            requests ++ (token :: pages.map Page.nextPageToken).map
              (fun t => listingURL playlistID t apiKey),
            []⟩ := by
  intro pages
  induction pages with
  | nil =>
    intro _ fuel hfuel token videoIDs requests
    cases fuel with
    | zero => omega
    | succ f => simp [fetchLoop, servePages, hlast]
  | cons p ps ih =>
    intro hp fuel hfuel token videoIDs requests
    cases fuel with
    | zero => omega
    | succ f =>
      have hp1 : p.nextPageToken ≠ [] := hp p (List.mem_cons_self _ _)
      have hps : ∀ q ∈ ps, q.nextPageToken ≠ [] := fun q hq => hp q (List.mem_cons_of_mem _ hq)
      have hf : ps.length + 1 ≤ f := by
        simp only [List.length_cons] at hfuel
        omega
      simp only [List.cons_append, fetchLoop, servePages, hp1, if_false]
      rw [ih hps f hf]
      simp

/-- The text of a request of `fetchPlaylistItems`, written out: the playlist identifier, the
page size 50, the cursor after `pageToken=` and the key. -/
theorem listingURL_text (playlistID cursor apiKey : List Char) :
    listingURL playlistID cursor apiKey
      = "https://www.googleapis.com/youtube/v3/playlistItems?part=contentDetails&playlistId=".toList
        ++ playlistID ++ "&maxResults=50&pageToken=".toList ++ cursor ++ "&key=".toList
        ++ apiKey := by
  have e : apiURL ++ "?part=contentDetails&playlistId=".toList
      = "https://www.googleapis.com/youtube/v3/playlistItems?part=contentDetails&playlistId=".toList := by
    decide
  unfold listingURL
  rw [e]

/-- C6.  For every `n ≥ 1` and every sequence of `n` well-formed pages served by the listing
endpoint, the first `n - 1` with a non-empty continuation token and the last with none,
`fetchPlaylistItems` finishes (any bound of at least `n` iterations is enough), issues
exactly `n` requests, the first with an empty cursor and each later one with the token of the
page before it, and returns with a nil error the item identifiers of the pages, concatenated
in request order.  The `n` pages are `pages ++ [last]`; the requests are given by their text,
in which the cursor is what stands between `&pageToken=` and `&key=`. -/
theorem fetchPlaylistItems_pages (apiKey playlistID : List Char) (pages : List Page)
    (last : Page) (fuel : Nat)
    (hpages : ∀ p ∈ pages, p.nextPageToken ≠ []) (hlast : last.nextPageToken = [])
    (hfuel : pages.length + 1 ≤ fuel) :
    fetchPlaylistItems servePages apiKey playlistID fuel (pages ++ [last])
      = some ⟨GoResult.ret (((pages ++ [last]).map Page.items).flatten),
          ([] :: pages.map Page.nextPageToken).map (fun cursor =>
            "https://www.googleapis.com/youtube/v3/playlistItems?part=contentDetails&playlistId=".toList
              ++ playlistID ++ "&maxResults=50&pageToken=".toList ++ cursor
              ++ "&key=".toList ++ apiKey),
          []⟩ ∧
    (([] :: pages.map Page.nextPageToken).map (fun cursor =>
        "https://www.googleapis.com/youtube/v3/playlistItems?part=contentDetails&playlistId=".toList
          ++ playlistID ++ "&maxResults=50&pageToken=".toList ++ cursor
          ++ "&key=".toList ++ apiKey)).length = pages.length + 1 := by
  refine ⟨?_, by simp⟩
  unfold fetchPlaylistItems
  rw [fetchLoop_servePages apiKey playlistID last hlast pages hpages fuel hfuel]
  simp only [List.nil_append, listingURL_text]

/-- C6 on the fixture of three pages, the first two with the tokens `t1` and `t2`: three
requests, with the cursors empty, `t1` and `t2`, and the five items in order. -/
theorem fetchPlaylistItems_pages_witness :
    fetchPlaylistItems servePages "KEY".toList "PL1".toList 3
        (fixturePages ++ [fixtureLastPage])
      = some ⟨GoResult.ret
            ["v1".toList, "v2".toList, "v3".toList, "v4".toList, "v5".toList],
          ["https://www.googleapis.com/youtube/v3/playlistItems?part=contentDetails&playlistId=PL1&maxResults=50&pageToken=&key=KEY".toList,
           "https://www.googleapis.com/youtube/v3/playlistItems?part=contentDetails&playlistId=PL1&maxResults=50&pageToken=t1&key=KEY".toList,
           "https://www.googleapis.com/youtube/v3/playlistItems?part=contentDetails&playlistId=PL1&maxResults=50&pageToken=t2&key=KEY".toList],
          []⟩ ∧
    3 = fixturePages.length + 1 :=
  fetchPlaylistItems_pages "KEY".toList "PL1".toList fixturePages fixtureLastPage 3
    (by decide) (by decide) (by decide)

/-! ## Rounding to `float64` -/

theorem bitLength_spec : ∀ (fuel n : Nat), 0 < n → n ≤ fuel →
    0 < bitLength fuel n ∧ 2 ^ (bitLength fuel n - 1) ≤ n ∧ n < 2 ^ bitLength fuel n := by
  intro fuel
  induction fuel with
  | zero => intro n h0 h1; omega
  | succ f ih =>
    intro n h0 h1
    have hn : n ≠ 0 := by omega
    simp only [bitLength, hn, if_false]
    by_cases h2 : n / 2 = 0
    · have hb : bitLength f (n / 2) = 0 := by
        rw [h2]
        cases f <;> simp [bitLength]
      rw [hb]
      have : n = 1 := by omega
      subst this
      simp
    · obtain ⟨p1, p2, p3⟩ := ih (n / 2) (by omega) (by omega)
      refine ⟨by omega, ?_, ?_⟩
      · have e : bitLength f (n / 2) + 1 - 1 = (bitLength f (n / 2) - 1) + 1 := by omega
        rw [e, pow_succ]
        omega
      · rw [pow_succ]
        omega

/-- The nearest natural number is at least every natural number below the quotient. -/
theorem le_roundHalfEven (n d z : Nat) (hd : 0 < d) (h : z * d ≤ n) :
    z ≤ roundHalfEven n d := by
  have hz : z ≤ n / d := (Nat.le_div_iff_mul_le hd).mpr h
  unfold roundHalfEven
  simp only
  split_ifs <;> omega

/-- The nearest natural number is at most every natural number above the quotient. -/
theorem roundHalfEven_le (n d z : Nat) (hd : 0 < d) (h : n ≤ z * d) :
    roundHalfEven n d ≤ z := by
  have hdm := Nat.div_add_mod n d
  have hml := Nat.mod_lt n hd
  have hq : n / d ≤ z := by
    calc n / d ≤ z * d / d := Nat.div_le_div_right h
      _ = z := Nat.mul_div_cancel z hd
  unfold roundHalfEven
  simp only
  by_cases hr : n % d = 0
  · have : 2 * (n % d) < d := by omega
    simp [this]
    exact hq
  · have hlt : n / d < z := by
      rcases Nat.lt_or_ge (n / d) z with h1 | h1
      · exact h1
      · have h2 : z = n / d := by omega
        exfalso
        rw [h2] at h
        have : d * (n / d) + n % d ≤ n / d * d := by omega
        have h3 : d * (n / d) = n / d * d := Nat.mul_comm _ _
        omega
    split_ifs <;> omega

/-- A quotient less than half a unit above `z` is not rounded above `z`. -/
theorem roundHalfEven_le_of_lt_half (n d z : Nat) (hd : 0 < d)
    (h : 2 * n < (2 * z + 1) * d) : roundHalfEven n d ≤ z := by
  have hdm := Nat.div_add_mod n d
  have hml := Nat.mod_lt n hd
  have hq : n / d ≤ z := by
    by_contra hc
    have h1 : z + 1 ≤ n / d := by omega
    have h2 : (z + 1) * d ≤ n / d * d := Nat.mul_le_mul_right d h1
    have h3 : d * (n / d) = n / d * d := Nat.mul_comm _ _
    have h4 : (2 * z + 1) * d = 2 * (z * d) + d := by ring
    have h5 : (z + 1) * d = z * d + d := by ring
    omega
  unfold roundHalfEven
  simp only
  rcases Nat.lt_or_ge (n / d) z with h1 | h1
  · split_ifs <;> omega
  · have h2 : n / d = z := by omega
    have h3 : d * (n / d) = n / d * d := Nat.mul_comm _ _
    have h4 : (2 * z + 1) * d = 2 * (z * d) + d := by ring
    rw [h2] at h3 hdm
    have : 2 * (n % d) < d := by omega
    simp [this, h2]

theorem scalePow2_spec (n d : Nat) (s : Int) (hd : 0 < d) :
    0 < (scalePow2 n d s).2 ∧
      ((scalePow2 n d s).1 : ℚ) / ((scalePow2 n d s).2 : ℚ) = (n : ℚ) / d / 2 ^ s := by
  have hd' : (d : ℚ) ≠ 0 := by positivity
  unfold scalePow2
  by_cases hs : 0 ≤ s
  · simp only [hs, if_true]
    refine ⟨by positivity, ?_⟩
    have e : s = (s.toNat : ℤ) := (Int.toNat_of_nonneg hs).symm
    rw [e, zpow_natCast]
    simp only [Int.toNat_ofNat]
    push_cast
    field_simp
  · simp only [hs, if_false]
    refine ⟨hd, ?_⟩
    have e : s = -((-s).toNat : ℤ) := by
      rw [Int.toNat_of_nonneg (by omega)]
      ring
    rw [e, zpow_neg, zpow_natCast]
    simp only [neg_neg, Int.toNat_ofNat]
    push_cast
    field_simp

theorem ilog2_spec (n d : Nat) (hn : 0 < n) (hd : 0 < d) :
    (2 : ℚ) ^ (ilog2 n d) ≤ (n : ℚ) / d ∧ (n : ℚ) / d < 2 ^ (ilog2 n d + 1) := by
  obtain ⟨bn0, bn1, bn2⟩ := bitLength_spec n n hn le_rfl
  obtain ⟨bd0, bd1, bd2⟩ := bitLength_spec d d hd le_rfl
  have hdq : (0 : ℚ) < d := by exact_mod_cast hd
  have h2 : (2 : ℚ) ≠ 0 := by norm_num
  have hn1 : (2 : ℚ) ^ ((bitLength n n : ℤ) - 1) ≤ n := by
    have e : (bitLength n n : ℤ) - 1 = ((bitLength n n - 1 : ℕ) : ℤ) := by omega
    rw [e, zpow_natCast]
    exact_mod_cast bn1
  have hn2 : (n : ℚ) < (2 : ℚ) ^ (bitLength n n : ℤ) := by
    rw [zpow_natCast]
    exact_mod_cast bn2
  have hd1 : (2 : ℚ) ^ ((bitLength d d : ℤ) - 1) ≤ d := by
    have e : (bitLength d d : ℤ) - 1 = ((bitLength d d - 1 : ℕ) : ℤ) := by omega
    rw [e, zpow_natCast]
    exact_mod_cast bd1
  have hd2 : (d : ℚ) < (2 : ℚ) ^ (bitLength d d : ℤ) := by
    rw [zpow_natCast]
    exact_mod_cast bd2
  -- bounds with the first guess `e0`
  have hup : (n : ℚ) / d < 2 ^ ((bitLength n n : ℤ) - (bitLength d d : ℤ) + 1) := by
    rw [div_lt_iff₀ hdq]
    calc (n : ℚ) < 2 ^ (bitLength n n : ℤ) := hn2
      _ = 2 ^ ((bitLength n n : ℤ) - (bitLength d d : ℤ) + 1)
            * 2 ^ ((bitLength d d : ℤ) - 1) := by
          rw [← zpow_add₀ h2]; congr 1; ring
      _ ≤ 2 ^ ((bitLength n n : ℤ) - (bitLength d d : ℤ) + 1) * d :=
          mul_le_mul_of_nonneg_left hd1 (le_of_lt (zpow_pos (by norm_num) _))
  have hlo : (2 : ℚ) ^ ((bitLength n n : ℤ) - (bitLength d d : ℤ) - 1) ≤ (n : ℚ) / d := by
    rw [le_div_iff₀ hdq]
    calc (2 : ℚ) ^ ((bitLength n n : ℤ) - (bitLength d d : ℤ) - 1) * d
        ≤ 2 ^ ((bitLength n n : ℤ) - (bitLength d d : ℤ) - 1) * 2 ^ (bitLength d d : ℤ) :=
          mul_le_mul_of_nonneg_left (le_of_lt hd2) (le_of_lt (zpow_pos (by norm_num) _))
      _ = 2 ^ ((bitLength n n : ℤ) - 1) := by
          rw [← zpow_add₀ h2]; congr 1; ring
      _ ≤ n := hn1
  obtain ⟨sp0, sp1⟩ :=
    scalePow2_spec n d ((bitLength n n : ℤ) - (bitLength d d : ℤ)) hd
  have sq : (0 : ℚ) < ((scalePow2 n d ((bitLength n n : ℤ) - (bitLength d d : ℤ))).2 : ℚ) := by
    exact_mod_cast sp0
  have hp : (0 : ℚ) < 2 ^ ((bitLength n n : ℤ) - (bitLength d d : ℤ)) :=
    zpow_pos (by norm_num) _
  unfold ilog2
  simp only
  by_cases ht : (scalePow2 n d ((bitLength n n : ℤ) - (bitLength d d : ℤ))).2
      ≤ (scalePow2 n d ((bitLength n n : ℤ) - (bitLength d d : ℤ))).1
  · rw [if_pos ht]
    refine ⟨?_, hup⟩
    have h1 : (1 : ℚ) ≤ ((scalePow2 n d ((bitLength n n : ℤ) - (bitLength d d : ℤ))).1 : ℚ)
        / ((scalePow2 n d ((bitLength n n : ℤ) - (bitLength d d : ℤ))).2 : ℚ) := by
      rw [one_le_div sq]
      exact_mod_cast ht
    rw [sp1, le_div_iff₀ hp, one_mul] at h1
    exact h1
  · rw [if_neg ht]
    refine ⟨hlo, ?_⟩
    have h1 : ((scalePow2 n d ((bitLength n n : ℤ) - (bitLength d d : ℤ))).1 : ℚ)
        / ((scalePow2 n d ((bitLength n n : ℤ) - (bitLength d d : ℤ))).2 : ℚ) < 1 := by
      rw [div_lt_one sq]
      exact_mod_cast not_le.mp ht
    rw [sp1, div_lt_iff₀ hp, one_mul] at h1
    have e : (bitLength n n : ℤ) - (bitLength d d : ℤ) - 1 + 1
        = (bitLength n n : ℤ) - (bitLength d d : ℤ) := by ring
    rw [e]
    exact h1

/-- What `roundMag` returns for a positive `n / d`: a multiple `m * 2 ^ s` of the quantum
`2 ^ s`, where `s` is at least `-1074`, the value is below `2 ^ 53` quanta and, outside the
subnormal range, at least `2 ^ 52` quanta, and `m` is the nearest number of quanta. -/
theorem roundMag_spec (n d : Nat) (hn : 0 < n) (hd : 0 < d) :
    ∃ (s : ℤ) (m : ℕ), -1074 ≤ s ∧ (n : ℚ) / d < 2 ^ 53 * 2 ^ s ∧
      (-1074 < s → (2 : ℚ) ^ 52 * 2 ^ s ≤ (n : ℚ) / d) ∧
      (roundMag n d).val = m * 2 ^ s ∧ 0 ≤ (roundMag n d).num ∧ 0 < (roundMag n d).den ∧
      (∀ z : ℕ, (z : ℚ) * 2 ^ s ≤ (n : ℚ) / d → z ≤ m) ∧
      (∀ z : ℕ, (n : ℚ) / d ≤ z * 2 ^ s → m ≤ z) ∧
      (∀ z : ℕ, 2 * ((n : ℚ) / d) < (2 * z + 1) * 2 ^ s → m ≤ z) := by
  obtain ⟨e1, e2⟩ := ilog2_spec n d hn hd
  have h2 : (2 : ℚ) ≠ 0 := by norm_num
  obtain ⟨sp0, sp1⟩ := scalePow2_spec n d (max (ilog2 n d - 52) (-1074)) hd
  have sq : (0 : ℚ) < ((scalePow2 n d (max (ilog2 n d - 52) (-1074))).2 : ℚ) := by
    exact_mod_cast sp0
  have hp : (0 : ℚ) < 2 ^ (max (ilog2 n d - 52) (-1074)) := zpow_pos (by norm_num) _
  refine ⟨max (ilog2 n d - 52) (-1074),
    roundHalfEven (scalePow2 n d (max (ilog2 n d - 52) (-1074))).1
      (scalePow2 n d (max (ilog2 n d - 52) (-1074))).2,
    le_max_right _ _, ?_, ?_, ?_, ?_, ?_, ?_, ?_, ?_⟩
  · calc (n : ℚ) / d < 2 ^ (ilog2 n d + 1) := e2
      _ = 2 ^ (53 : ℤ) * 2 ^ (ilog2 n d - 52) := by
          rw [← zpow_add₀ h2]; congr 1; ring
      _ ≤ 2 ^ (53 : ℤ) * 2 ^ (max (ilog2 n d - 52) (-1074)) :=
          mul_le_mul_of_nonneg_left
            (zpow_le_zpow_right₀ (by norm_num) (le_max_left _ _)) (by positivity)
      _ = 2 ^ 53 * 2 ^ (max (ilog2 n d - 52) (-1074)) := by norm_num
  · intro hs
    have hmax : max (ilog2 n d - 52) (-1074) = ilog2 n d - 52 := by
      rcases max_cases (ilog2 n d - 52) (-1074) with ⟨h, _⟩ | ⟨h, _⟩
      · exact h
      · rw [h] at hs; exact absurd hs (lt_irrefl _)
    rw [hmax]
    calc (2 : ℚ) ^ 52 * 2 ^ (ilog2 n d - 52) = 2 ^ (52 : ℤ) * 2 ^ (ilog2 n d - 52) := by
          norm_num
      _ = 2 ^ (ilog2 n d) := by rw [← zpow_add₀ h2]; congr 1; ring
      _ ≤ (n : ℚ) / d := e1
  · unfold roundMag
    rw [if_neg (by omega)]
    simp only
    by_cases hs : 0 ≤ max (ilog2 n d - 52) (-1074)
    · rw [if_pos hs]
      have e : (2 : ℚ) ^ (max (ilog2 n d - 52) (-1074))
          = 2 ^ (max (ilog2 n d - 52) (-1074)).toNat := by
        conv_lhs => rw [← Int.toNat_of_nonneg hs]
        rw [zpow_natCast]
      rw [e]
      simp [Frac.val]
    · rw [if_neg hs]
      have e : (2 : ℚ) ^ (max (ilog2 n d - 52) (-1074))
          = (2 ^ (-(max (ilog2 n d - 52) (-1074))).toNat)⁻¹ := by
        have e2 : max (ilog2 n d - 52) (-1074)
            = -(((-(max (ilog2 n d - 52) (-1074))).toNat : ℕ) : ℤ) := by
          rw [Int.toNat_of_nonneg (by omega)]
          ring
        conv_lhs => rw [e2]
        rw [zpow_neg, zpow_natCast]
      rw [e]
      simp [Frac.val, div_eq_mul_inv]
  · unfold roundMag
    rw [if_neg (by omega)]
    simp only
    split_ifs <;> simp
  · unfold roundMag
    rw [if_neg (by omega)]
    simp only
    split_ifs <;> simp
  · intro z hz
    apply le_roundHalfEven _ _ _ sp0
    have h1 : (z : ℚ) ≤ ((scalePow2 n d (max (ilog2 n d - 52) (-1074))).1 : ℚ)
        / ((scalePow2 n d (max (ilog2 n d - 52) (-1074))).2 : ℚ) := by
      rw [sp1, le_div_iff₀ hp]
      exact hz
    rw [le_div_iff₀ sq] at h1
    exact_mod_cast h1
  · intro z hz
    apply roundHalfEven_le _ _ _ sp0
    have h1 : ((scalePow2 n d (max (ilog2 n d - 52) (-1074))).1 : ℚ)
        / ((scalePow2 n d (max (ilog2 n d - 52) (-1074))).2 : ℚ) ≤ (z : ℚ) := by
      rw [sp1, div_le_iff₀ hp]
      exact hz
    rw [div_le_iff₀ sq] at h1
    exact_mod_cast h1
  · intro z hz
    apply roundHalfEven_le_of_lt_half _ _ _ sp0
    have h1 : 2 * (((scalePow2 n d (max (ilog2 n d - 52) (-1074))).1 : ℚ)
        / ((scalePow2 n d (max (ilog2 n d - 52) (-1074))).2 : ℚ)) < 2 * (z : ℚ) + 1 := by
      rw [sp1, ← mul_div_assoc, div_lt_iff₀ hp]
      exact hz
    rw [← mul_div_assoc, div_lt_iff₀ sq] at h1
    exact_mod_cast h1

theorem roundF64_of_nonneg (x : Frac) (h0 : 0 ≤ x.num) :
    roundF64 x = roundMag x.num.natAbs x.den := by
  unfold roundF64
  rw [if_neg (by omega)]

theorem Frac.val_of_nonneg (x : Frac) (h0 : 0 ≤ x.num) :
    x.val = (x.num.natAbs : ℚ) / x.den := by
  unfold Frac.val
  have : ((x.num.natAbs : ℤ) : ℚ) = (x.num : ℚ) := by
    rw [Int.natAbs_of_nonneg h0]
  rw [← this, Int.cast_natCast]

/-- Rounding a value that is not negative gives a value that is not negative. -/
theorem roundF64_wf (x : Frac) (h0 : 0 ≤ x.num) (hd : 0 < x.den) :
    0 ≤ (roundF64 x).num ∧ 0 < (roundF64 x).den := by
  rw [roundF64_of_nonneg x h0]
  by_cases hz : x.num.natAbs = 0
  · simp [roundMag, hz]
  · obtain ⟨s, m, _, _, _, _, h5, h6, _⟩ := roundMag_spec x.num.natAbs x.den (by omega) hd
    exact ⟨h5, h6⟩

/-- Rounding does not go below a `float64` that the exact value is not below. -/
theorem le_roundF64 (x : Frac) (h0 : 0 ≤ x.num) (hd : 0 < x.den) (k : ℕ) (t : ℤ)
    (hk : k < 2 ^ 53) (ht : -1074 ≤ t) (h : (k : ℚ) * 2 ^ t ≤ x.val) :
    (k : ℚ) * 2 ^ t ≤ (roundF64 x).val := by
  have h2 : (2 : ℚ) ≠ 0 := by norm_num
  rw [roundF64_of_nonneg x h0]
  rw [Frac.val_of_nonneg x h0] at h
  by_cases hz : x.num.natAbs = 0
  · rw [hz] at h
    simp only [roundMag, hz, if_true, Frac.val]
    simpa using h
  · obtain ⟨s, m, s0, x1, x2, hv, _, _, z1, _, _⟩ :=
      roundMag_spec x.num.natAbs x.den (by omega) hd
    rw [hv]
    have hp : (0 : ℚ) < 2 ^ s := zpow_pos (by norm_num) _
    by_cases hts : s ≤ t
    · have e : (2 : ℚ) ^ t = 2 ^ (t - s).toNat * 2 ^ s := by
        rw [← zpow_natCast, Int.toNat_of_nonneg (by omega), ← zpow_add₀ h2]
        congr 1; ring
      have hz1 := z1 (k * 2 ^ (t - s).toNat) (by
        push_cast
        rw [mul_assoc, ← e]
        exact h)
      rw [e, ← mul_assoc]
      apply mul_le_mul_of_nonneg_right _ (le_of_lt hp)
      exact_mod_cast hz1
    · have hs : -1074 < s := by omega
      have hz1 := z1 (2 ^ 52) (by
        push_cast
        exact x2 hs)
      have hkq : (k : ℚ) < 2 ^ 53 := by exact_mod_cast hk
      have hm : ((2 ^ 52 : ℕ) : ℚ) ≤ (m : ℚ) := by exact_mod_cast hz1
      push_cast at hm
      have e : (2 : ℚ) ^ s = 2 * 2 ^ (s - 1) := by
        have : s = 1 + (s - 1) := by ring
        conv_lhs => rw [this]
        rw [zpow_add₀ h2, zpow_one]
      have hle : (2 : ℚ) ^ t ≤ 2 ^ (s - 1) := zpow_le_zpow_right₀ (by norm_num) (by omega)
      have hp1 : (0 : ℚ) < 2 ^ (s - 1) := zpow_pos (by norm_num) _
      have hpt : (0 : ℚ) < 2 ^ t := zpow_pos (by norm_num) _
      calc (k : ℚ) * 2 ^ t ≤ 2 ^ 53 * 2 ^ t :=
            mul_le_mul_of_nonneg_right (le_of_lt hkq) (le_of_lt hpt)
        _ ≤ 2 ^ 53 * 2 ^ (s - 1) := mul_le_mul_of_nonneg_left hle (by positivity)
        _ = 2 ^ 52 * 2 ^ s := by rw [e]; ring
        _ ≤ (m : ℚ) * 2 ^ s := mul_le_mul_of_nonneg_right hm (le_of_lt hp)

/-- Rounding does not go above a `float64` that the exact value is not above. -/
theorem roundF64_le (x : Frac) (h0 : 0 ≤ x.num) (hd : 0 < x.den) (k : ℕ) (t : ℤ)
    (hk : k < 2 ^ 53) (ht : -1074 ≤ t) (h : x.val ≤ (k : ℚ) * 2 ^ t) :
    (roundF64 x).val ≤ (k : ℚ) * 2 ^ t := by
  have h2 : (2 : ℚ) ≠ 0 := by norm_num
  rw [roundF64_of_nonneg x h0]
  rw [Frac.val_of_nonneg x h0] at h
  have hpt : (0 : ℚ) < 2 ^ t := zpow_pos (by norm_num) _
  by_cases hz : x.num.natAbs = 0
  · simp only [roundMag, hz, if_true, Frac.val]
    simp only [Int.cast_zero, Nat.cast_one, div_one]
    positivity
  · obtain ⟨s, m, s0, x1, x2, hv, _, _, _, z2, _⟩ :=
      roundMag_spec x.num.natAbs x.den (by omega) hd
    rw [hv]
    have hp : (0 : ℚ) < 2 ^ s := zpow_pos (by norm_num) _
    by_cases hts : s ≤ t
    · have e : (2 : ℚ) ^ t = 2 ^ (t - s).toNat * 2 ^ s := by
        rw [← zpow_natCast, Int.toNat_of_nonneg (by omega), ← zpow_add₀ h2]
        congr 1; ring
      have hz1 := z2 (k * 2 ^ (t - s).toNat) (by
        push_cast
        rw [mul_assoc, ← e]
        exact h)
      rw [e, ← mul_assoc]
      apply mul_le_mul_of_nonneg_right _ (le_of_lt hp)
      exact_mod_cast hz1
    · exfalso
      have hs : -1074 < s := by omega
      have hx := x2 hs
      have hkq : (k : ℚ) < 2 ^ 53 := by exact_mod_cast hk
      have e : (2 : ℚ) ^ s = 2 * 2 ^ (s - 1) := by
        have : s = 1 + (s - 1) := by ring
        conv_lhs => rw [this]
        rw [zpow_add₀ h2, zpow_one]
      have hle : (2 : ℚ) ^ t ≤ 2 ^ (s - 1) := zpow_le_zpow_right₀ (by norm_num) (by omega)
      have hlt : (k : ℚ) * 2 ^ t < 2 ^ 52 * 2 ^ s := by
        calc (k : ℚ) * 2 ^ t < 2 ^ 53 * 2 ^ t := mul_lt_mul_of_pos_right hkq hpt
          _ ≤ 2 ^ 53 * 2 ^ (s - 1) := mul_le_mul_of_nonneg_left hle (by positivity)
          _ = 2 ^ 52 * 2 ^ s := by rw [e]; ring
      linarith

/-- A natural number below `2 ^ 53` converts to `float64` exactly. -/
theorem float64_natCast (k : ℕ) (hk : k < 2 ^ 53) :
    (float64 (k : ℤ)).val = k ∧ 0 ≤ (float64 (k : ℤ)).num ∧ 0 < (float64 (k : ℤ)).den := by
  have hv : (⟨(k : ℤ), 1⟩ : Frac).val = k := by simp [Frac.val]
  have hw := roundF64_wf ⟨(k : ℤ), 1⟩ (by simp) (by simp)
  have h1 := le_roundF64 ⟨(k : ℤ), 1⟩ (by simp) (by simp) k 0 hk (by norm_num)
    (by rw [hv]; simp)
  have h3 := roundF64_le ⟨(k : ℤ), 1⟩ (by simp) (by simp) k 0 hk (by norm_num)
    (by rw [hv]; simp)
  simp only [zpow_zero, mul_one] at h1 h3
  exact ⟨le_antisymm h3 h1, hw⟩

/-- Rounding stays below a natural number `b` that the exact value is more than half a
quantum below: the quantum of a value below `2 ^ 53 / 2 ^ j` is at most `1 / 2 ^ j`. -/
theorem roundF64_lt_natCast (x : Frac) (h0 : 0 ≤ x.num) (hd : 0 < x.den) (b j : ℕ)
    (hj : j ≤ 1074) (hx : x.val * 2 ^ j < 2 ^ 53)
    (hb : 2 * x.val * 2 ^ j + 1 < 2 * (b : ℚ) * 2 ^ j) :
    (roundF64 x).val < (b : ℚ) := by
  have h2 : (2 : ℚ) ≠ 0 := by norm_num
  have hjq : (0 : ℚ) < 2 ^ j := by positivity
  rw [roundF64_of_nonneg x h0]
  rw [Frac.val_of_nonneg x h0] at hx hb
  have hxnn : (0 : ℚ) ≤ (x.num.natAbs : ℚ) / x.den := by positivity
  have hbpos : (0 : ℚ) < b := by
    by_contra hcon
    have hb0 : (b : ℚ) ≤ 0 := not_lt.mp hcon
    have : 2 * (b : ℚ) * 2 ^ j ≤ 0 := by
      have := mul_nonpos_of_nonpos_of_nonneg (mul_nonpos_of_nonneg_of_nonpos
        (show (0 : ℚ) ≤ 2 by norm_num) hb0) (le_of_lt hjq)
      exact this
    have h3 : (0 : ℚ) ≤ 2 * ((x.num.natAbs : ℚ) / x.den) * 2 ^ j := by positivity
    linarith
  by_cases hz : x.num.natAbs = 0
  · simp only [roundMag, hz, if_true, Frac.val]
    simpa using hbpos
  · obtain ⟨s, m, s0, x1, x2, hv, _, _, _, _, z3⟩ :=
      roundMag_spec x.num.natAbs x.den (by omega) hd
    rw [hv]
    have hp : (0 : ℚ) < 2 ^ s := zpow_pos (by norm_num) _
    -- the quantum is at most `1 / 2 ^ j`
    have hs : s ≤ -(j : ℤ) := by
      by_cases hs1 : -1074 < s
      · have hx2 := x2 hs1
        have h3 : (2 : ℚ) ^ 52 * 2 ^ s * 2 ^ j < 2 ^ 53 :=
          lt_of_le_of_lt (mul_le_mul_of_nonneg_right hx2 (le_of_lt hjq)) hx
        have h4 : (2 : ℚ) ^ (s + j) < 2 ^ (1 : ℤ) := by
          rw [zpow_add₀ h2, zpow_natCast, zpow_one]
          have : (2 : ℚ) ^ 52 * (2 ^ s * 2 ^ j) < 2 ^ 52 * 2 := by
            rw [← mul_assoc]
            calc (2 : ℚ) ^ 52 * 2 ^ s * 2 ^ j < 2 ^ 53 := h3
              _ = 2 ^ 52 * 2 := by norm_num
          exact lt_of_mul_lt_mul_left this (by positivity)
        have h5 : s + j < 1 := (zpow_lt_zpow_iff_right₀ (by norm_num)).mp h4
        omega
      · omega
    have hs0 : s ≤ 0 := by omega
    have hq1 : (2 : ℚ) ^ s * 2 ^ j ≤ 1 := by
      rw [← zpow_natCast, ← zpow_add₀ h2]
      calc (2 : ℚ) ^ (s + j) ≤ 2 ^ (0 : ℤ) := zpow_le_zpow_right₀ (by norm_num) (by omega)
        _ = 1 := zpow_zero _
    -- `b` as a number of quanta
    have e1 : (1 : ℚ) = 2 ^ (-s).toNat * 2 ^ s := by
      rw [← zpow_natCast, Int.toNat_of_nonneg (by omega), ← zpow_add₀ h2]
      simp
    have hbn : 1 ≤ b * 2 ^ (-s).toNat := by
      have : 0 < b := by exact_mod_cast hbpos
      exact Nat.one_le_iff_ne_zero.mpr (by positivity)
    have hm := z3 (b * 2 ^ (-s).toNat - 1) (by
      rw [Nat.cast_sub hbn]
      push_cast
      have e2 : (2 * ((b : ℚ) * 2 ^ (-s).toNat - 1) + 1) * 2 ^ s
          = 2 * (b : ℚ) * (2 ^ (-s).toNat * 2 ^ s) - 2 ^ s := by ring
      rw [e2, ← e1, mul_one]
      -- multiply the hypothesis back by `2 ^ j`
      have h6 : (2 * ((x.num.natAbs : ℚ) / x.den)) * 2 ^ j < (2 * (b : ℚ) - 2 ^ s) * 2 ^ j := by
        have : (2 * (b : ℚ) - 2 ^ s) * 2 ^ j = 2 * (b : ℚ) * 2 ^ j - 2 ^ s * 2 ^ j := by ring
        rw [this]
        linarith
      exact lt_of_mul_lt_mul_right h6 (le_of_lt hjq))
    have hmq : (m : ℚ) ≤ (b : ℚ) * 2 ^ (-s).toNat - 1 := by
      have : (m : ℚ) ≤ ((b * 2 ^ (-s).toNat - 1 : ℕ) : ℚ) := by exact_mod_cast hm
      rw [Nat.cast_sub hbn] at this
      push_cast at this
      exact this
    calc (m : ℚ) * 2 ^ s ≤ ((b : ℚ) * 2 ^ (-s).toNat - 1) * 2 ^ s :=
          mul_le_mul_of_nonneg_right hmq (le_of_lt hp)
      _ = (b : ℚ) * (2 ^ (-s).toNat * 2 ^ s) - 2 ^ s := by ring
      _ = (b : ℚ) - 2 ^ s := by rw [← e1, mul_one]
      _ < (b : ℚ) := by linarith

theorem truncate_eq_floor (x : Frac) : truncate x = ⌊x.val⌋ ∨ x.num < 0 := by
  by_cases h0 : 0 ≤ x.num
  · left
    unfold truncate Frac.val
    rw [Rat.floor_intCast_div_natCast, Int.tdiv_eq_ediv h0 (by positivity)]
  · right; omega

/-- The integer part of `float64(n) + float64(r) / c`, computed in `float64`, is `n` when
`r / c` is at most `1 - k / 2 ^ 53`, the sum is below `2 ^ (53 - j)`, so that its quantum is
at most `2 ^ (-j)`, and `k / 2 ^ 53` is more than half of that. -/
theorem truncate_fadd_fdiv (n r c j k : ℕ) (hc : 0 < c) (hr : r < 2 ^ 53)
    (hn : (n + 1) * 2 ^ j ≤ 2 ^ 53) (hk : k ≤ 2 ^ 53)
    (hrc : r * 2 ^ 53 ≤ (2 ^ 53 - k) * c) (hgap : 2 ^ 53 < k * 2 ^ (j + 1)) :
    truncate (fadd (float64 (n : ℤ)) (fdiv (float64 (r : ℤ)) ⟨(c : ℤ), 1⟩)) = (n : ℤ) := by
  have hj1 : 1 ≤ 2 ^ j := Nat.one_le_two_pow
  have hj53 : j ≤ 53 := by
    by_contra hcon
    have h54 : 2 ^ 54 ≤ 2 ^ j := Nat.pow_le_pow_right (by norm_num) (by omega)
    have h1 : 2 ^ j ≤ (n + 1) * 2 ^ j := Nat.le_mul_of_pos_left _ (by omega)
    have h2 := le_trans (le_trans h54 h1) hn
    norm_num at h2
  have hn53 : n < 2 ^ 53 := by
    have h1 : (n + 1) * 1 ≤ (n + 1) * 2 ^ j := Nat.mul_le_mul_left _ hj1
    omega
  have hk0 : 0 < k := by
    rcases Nat.eq_zero_or_pos k with h | h
    · rw [h] at hgap; simp at hgap
    · exact h
  obtain ⟨av, a0, ad⟩ := float64_natCast n hn53
  obtain ⟨bv, b0, bd⟩ := float64_natCast r hr
  have hcq : (0 : ℚ) < c := by exact_mod_cast hc
  have hjq : (0 : ℚ) < 2 ^ j := by positivity
  have h53 : (0 : ℚ) < 2 ^ 53 := by positivity
  -- the quotient
  have fdef : fdiv (float64 (r : ℤ)) ⟨(c : ℤ), 1⟩
      = roundF64 ⟨(float64 (r : ℤ)).num * 1 * (c : ℤ).sign,
          (float64 (r : ℤ)).den * (c : ℤ).natAbs⟩ := rfl
  have hsign : (c : ℤ).sign = 1 := Int.sign_eq_one_of_pos (by exact_mod_cast hc)
  have fnum : 0 ≤ (float64 (r : ℤ)).num * 1 * (c : ℤ).sign := by
    rw [hsign]; simpa using b0
  have fden : 0 < (float64 (r : ℤ)).den * (c : ℤ).natAbs := by
    simp only [Int.natAbs_ofNat]
    exact Nat.mul_pos bd hc
  have fval : (⟨(float64 (r : ℤ)).num * 1 * (c : ℤ).sign,
      (float64 (r : ℤ)).den * (c : ℤ).natAbs⟩ : Frac).val = (r : ℚ) / c := by
    have bdq : ((float64 (r : ℤ)).den : ℚ) ≠ 0 := by
      have : (0 : ℚ) < ((float64 (r : ℤ)).den : ℚ) := by exact_mod_cast bd
      exact ne_of_gt this
    simp only [Frac.val, hsign, Int.natAbs_ofNat] at bv ⊢
    push_cast
    rw [← bv]
    field_simp
  obtain ⟨q0, qd⟩ := roundF64_wf ⟨(float64 (r : ℤ)).num * 1 * (c : ℤ).sign,
    (float64 (r : ℤ)).den * (c : ℤ).natAbs⟩ fnum fden
  have qle := roundF64_le ⟨(float64 (r : ℤ)).num * 1 * (c : ℤ).sign,
    (float64 (r : ℤ)).den * (c : ℤ).natAbs⟩ fnum fden (2 ^ 53 - k) (-(53 : ℤ))
    (by omega) (by norm_num)
    (by
      rw [fval, zpow_neg, div_le_iff₀ hcq]
      have h1 : ((r * 2 ^ 53 : ℕ) : ℚ) ≤ (((2 ^ 53 - k) * c : ℕ) : ℚ) := by exact_mod_cast hrc
      push_cast at h1
      have e : ((2 : ℚ) ^ (53 : ℤ)) = 2 ^ 53 := by norm_cast
      rw [e, mul_assoc, mul_comm _ (c : ℚ), ← mul_assoc, ← div_eq_mul_inv, le_div_iff₀ h53]
      exact h1)
  rw [← fdef] at q0 qd qle
  have qnn : (0 : ℚ) ≤ (fdiv (float64 (r : ℤ)) ⟨(c : ℤ), 1⟩).val := by
    unfold Frac.val
    apply div_nonneg
    · exact_mod_cast q0
    · positivity
  -- the quotient is at most `1 - k / 2 ^ 53`
  have qle2 : (fdiv (float64 (r : ℤ)) ⟨(c : ℤ), 1⟩).val ≤ 1 - (k : ℚ) / 2 ^ 53 := by
    have e : ((2 : ℚ) ^ (-(53 : ℤ))) = (2 ^ 53)⁻¹ := by
      rw [zpow_neg]; norm_cast
    rw [e, Nat.cast_sub hk] at qle
    push_cast at qle
    have : ((2 : ℚ) ^ 53 - k) * (2 ^ 53)⁻¹ = 1 - (k : ℚ) / 2 ^ 53 := by
      field_simp
    linarith
  have hgapq : (2 : ℚ) ^ 53 < (k : ℚ) * (2 ^ j * 2) := by
    have : ((2 ^ 53 : ℕ) : ℚ) < ((k * 2 ^ (j + 1) : ℕ) : ℚ) := by exact_mod_cast hgap
    push_cast at this
    rw [pow_succ] at this
    exact this
  have hnq : ((n : ℚ) + 1) * 2 ^ j ≤ 2 ^ 53 := by
    have : (((n + 1) * 2 ^ j : ℕ) : ℚ) ≤ ((2 ^ 53 : ℕ) : ℚ) := by exact_mod_cast hn
    push_cast at this
    exact this
  have hkq : (0 : ℚ) < k := by exact_mod_cast hk0
  -- the sum
  have sdef : fadd (float64 (n : ℤ)) (fdiv (float64 (r : ℤ)) ⟨(c : ℤ), 1⟩)
      = roundF64 ⟨(float64 (n : ℤ)).num * (fdiv (float64 (r : ℤ)) ⟨(c : ℤ), 1⟩).den
          + (fdiv (float64 (r : ℤ)) ⟨(c : ℤ), 1⟩).num * (float64 (n : ℤ)).den,
          (float64 (n : ℤ)).den * (fdiv (float64 (r : ℤ)) ⟨(c : ℤ), 1⟩).den⟩ := rfl
  have snum : 0 ≤ (float64 (n : ℤ)).num * (fdiv (float64 (r : ℤ)) ⟨(c : ℤ), 1⟩).den
      + (fdiv (float64 (r : ℤ)) ⟨(c : ℤ), 1⟩).num * (float64 (n : ℤ)).den := by
    positivity
  have sden : 0 < (float64 (n : ℤ)).den * (fdiv (float64 (r : ℤ)) ⟨(c : ℤ), 1⟩).den :=
    Nat.mul_pos ad qd
  have sval : (⟨(float64 (n : ℤ)).num * (fdiv (float64 (r : ℤ)) ⟨(c : ℤ), 1⟩).den
      + (fdiv (float64 (r : ℤ)) ⟨(c : ℤ), 1⟩).num * (float64 (n : ℤ)).den,
      (float64 (n : ℤ)).den * (fdiv (float64 (r : ℤ)) ⟨(c : ℤ), 1⟩).den⟩ : Frac).val
      = (n : ℚ) + (fdiv (float64 (r : ℤ)) ⟨(c : ℤ), 1⟩).val := by
    have adq : ((float64 (n : ℤ)).den : ℚ) ≠ 0 := by
      have : (0 : ℚ) < ((float64 (n : ℤ)).den : ℚ) := by exact_mod_cast ad
      exact ne_of_gt this
    have qdq : ((fdiv (float64 (r : ℤ)) ⟨(c : ℤ), 1⟩).den : ℚ) ≠ 0 := by
      have : (0 : ℚ) < ((fdiv (float64 (r : ℤ)) ⟨(c : ℤ), 1⟩).den : ℚ) := by exact_mod_cast qd
      exact ne_of_gt this
    rw [← av]
    simp only [Frac.val]
    push_cast
    field_simp
  have rlo := le_roundF64 ⟨(float64 (n : ℤ)).num
      * (fdiv (float64 (r : ℤ)) ⟨(c : ℤ), 1⟩).den
      + (fdiv (float64 (r : ℤ)) ⟨(c : ℤ), 1⟩).num * (float64 (n : ℤ)).den,
    (float64 (n : ℤ)).den * (fdiv (float64 (r : ℤ)) ⟨(c : ℤ), 1⟩).den⟩ snum sden n 0 hn53
    (by norm_num)
    (by rw [sval]; simp only [zpow_zero, mul_one]; linarith)
  have rhi := roundF64_lt_natCast ⟨(float64 (n : ℤ)).num
      * (fdiv (float64 (r : ℤ)) ⟨(c : ℤ), 1⟩).den
      + (fdiv (float64 (r : ℤ)) ⟨(c : ℤ), 1⟩).num * (float64 (n : ℤ)).den,
    (float64 (n : ℤ)).den * (fdiv (float64 (r : ℤ)) ⟨(c : ℤ), 1⟩).den⟩ snum sden (n + 1) j
    (by omega)
    (by
      rw [sval]
      have h1 : ((n : ℚ) + (fdiv (float64 (r : ℤ)) ⟨(c : ℤ), 1⟩).val) * 2 ^ j
          < ((n : ℚ) + 1) * 2 ^ j := by
        apply mul_lt_mul_of_pos_right _ hjq
        have : (0 : ℚ) < (k : ℚ) / 2 ^ 53 := by positivity
        linarith
      linarith)
    (by
      rw [sval]
      push_cast
      have h1 : (k : ℚ) / 2 ^ 53 * (2 ^ j * 2) > 1 := by
        rw [gt_iff_lt, div_mul_eq_mul_div, lt_div_iff₀ h53, one_mul]
        exact hgapq
      have h2 : (1 - (fdiv (float64 (r : ℤ)) ⟨(c : ℤ), 1⟩).val) * (2 ^ j * 2)
          ≥ (k : ℚ) / 2 ^ 53 * (2 ^ j * 2) := by
        apply mul_le_mul_of_nonneg_right _ (by positivity)
        linarith
      nlinarith)
  rw [← sdef] at rlo rhi
  rcases truncate_eq_floor (fadd (float64 (n : ℤ)) (fdiv (float64 (r : ℤ)) ⟨(c : ℤ), 1⟩))
    with ht | ht
  · rw [ht, Int.floor_eq_iff]
    simp only [zpow_zero, mul_one] at rlo
    refine ⟨by exact_mod_cast rlo, ?_⟩
    push_cast at rhi ⊢
    exact rhi
  · have r0 := (roundF64_wf ⟨(float64 (n : ℤ)).num
        * (fdiv (float64 (r : ℤ)) ⟨(c : ℤ), 1⟩).den
        + (fdiv (float64 (r : ℤ)) ⟨(c : ℤ), 1⟩).num * (float64 (n : ℤ)).den,
      (float64 (n : ℤ)).den * (fdiv (float64 (r : ℤ)) ⟨(c : ℤ), 1⟩).den⟩ snum sden).1
    rw [← sdef] at r0
    omega

/-- One of the three fields of `formatDuration`: the integer part of
`float64(D / c) + float64(D % c) / c` is `D / c`. -/
theorem truncate_part (D c j k : ℕ) (hc : 0 < c) (hc53 : c ≤ 2 ^ 53)
    (hn : (D / c + 1) * 2 ^ j ≤ 2 ^ 53) (hk : k ≤ 2 ^ 53)
    (hrc : (D % c) * 2 ^ 53 ≤ (2 ^ 53 - k) * c) (hgap : 2 ^ 53 < k * 2 ^ (j + 1)) :
    truncate (fadd (float64 (Int.tdiv (D : ℤ) (c : ℤ)))
      (fdiv (float64 (Int.tmod (D : ℤ) (c : ℤ))) ⟨(c : ℤ), 1⟩)) = ((D / c : ℕ) : ℤ) := by
  rw [← Int.ofNat_tdiv, ← Int.ofNat_tmod]
  exact truncate_fadd_fdiv (D / c) (D % c) c j k hc
    (lt_of_lt_of_le (Nat.mod_lt D hc) hc53) hn hk hrc hgap

theorem Hour_eq : Hour = ((3600000000000 : ℕ) : ℤ) := by decide

theorem Minute_eq : Minute = ((60000000000 : ℕ) : ℤ) := by decide

theorem Second_eq : Second = ((1000000000 : ℕ) : ℤ) := by decide

/-- The three fields of `formatDuration` are exact for a duration whose sub-second part is at
most 0.9 seconds, and for a duration below 4096 hours. -/
theorem formatDuration_fields (D : ℕ) (hmax : D < 2 ^ 63)
    (h : D % 1000000000 ≤ 900000000 ∨ D < 4096 * 3600000000000) :
    truncate (Hours (D : ℤ)) = ((D / 3600000000000 : ℕ) : ℤ) ∧
    truncate (Minutes (D : ℤ)) = ((D / 60000000000 : ℕ) : ℤ) ∧
    truncate (Seconds (D : ℤ)) = ((D / 1000000000 : ℕ) : ℤ) := by
  have eh : Hours (D : ℤ) = fadd (float64 (Int.tdiv (D : ℤ) ((3600000000000 : ℕ) : ℤ)))
      (fdiv (float64 (Int.tmod (D : ℤ) ((3600000000000 : ℕ) : ℤ)))
        ⟨((3600000000000 : ℕ) : ℤ), 1⟩) := by
    unfold Hours
    rw [Hour_eq]
    rfl
  have em : Minutes (D : ℤ) = fadd (float64 (Int.tdiv (D : ℤ) ((60000000000 : ℕ) : ℤ)))
      (fdiv (float64 (Int.tmod (D : ℤ) ((60000000000 : ℕ) : ℤ)))
        ⟨((60000000000 : ℕ) : ℤ), 1⟩) := by
    unfold Minutes
    rw [Minute_eq]
    rfl
  have es : Seconds (D : ℤ) = fadd (float64 (Int.tdiv (D : ℤ) ((1000000000 : ℕ) : ℤ)))
      (fdiv (float64 (Int.tmod (D : ℤ) ((1000000000 : ℕ) : ℤ)))
        ⟨((1000000000 : ℕ) : ℤ), 1⟩) := by
    unfold Seconds
    rw [Second_eq]
    rfl
  rw [eh, em, es]
  norm_num at hmax
  rcases h with h | h
  · refine ⟨truncate_part D 3600000000000 30 (2 ^ 37) (by norm_num) (by norm_num) ?_ ?_ ?_ ?_,
      truncate_part D 60000000000 25 (2 ^ 43) (by norm_num) (by norm_num) ?_ ?_ ?_ ?_,
      truncate_part D 1000000000 19 (2 ^ 49) (by norm_num) (by norm_num) ?_ ?_ ?_ ?_⟩ <;>
      norm_num <;> omega
  · refine ⟨truncate_part D 3600000000000 41 2500 (by norm_num) (by norm_num) ?_ ?_ ?_ ?_,
      truncate_part D 60000000000 35 150000 (by norm_num) (by norm_num) ?_ ?_ ?_ ?_,
      truncate_part D 1000000000 29 9000000 (by norm_num) (by norm_num) ?_ ?_ ?_ ?_⟩ <;>
      norm_num <;> omega

/-- The duration `time.Duration(float64(T) / speed)` lies between two natural numbers that
the exact quotient `T * den / num` lies between, the upper one with a margin of more than
half a quantum. -/
theorem adjusted_bounds (T num den lo hi j : ℕ) (hT : T < 2 ^ 53) (hnum : 0 < num)
    (hden : 0 < den) (hj : j ≤ 1) (hlo53 : lo < 2 ^ 53) (hlo : lo * num ≤ T * den)
    (hx : T * den * 2 ^ j < 2 ^ 53 * num)
    (hhi : 2 * T * den * 2 ^ j + num < 2 * hi * 2 ^ j * num) :
    (lo : ℤ) ≤ truncate (fdiv (float64 (T : ℤ)) ⟨(num : ℤ), den⟩) ∧
      truncate (fdiv (float64 (T : ℤ)) ⟨(num : ℤ), den⟩) < (hi : ℤ) := by
  obtain ⟨av, a0, ad⟩ := float64_natCast T hT
  have hnq : (0 : ℚ) < num := by exact_mod_cast hnum
  have hdq : (0 : ℚ) < den := by exact_mod_cast hden
  have hjq : (0 : ℚ) < 2 ^ j := by positivity
  have hsign : (num : ℤ).sign = 1 := Int.sign_eq_one_of_pos (by exact_mod_cast hnum)
  have fdef : fdiv (float64 (T : ℤ)) ⟨(num : ℤ), den⟩
      = roundF64 ⟨(float64 (T : ℤ)).num * den * (num : ℤ).sign,
          (float64 (T : ℤ)).den * (num : ℤ).natAbs⟩ := rfl
  have fnum : 0 ≤ (float64 (T : ℤ)).num * den * (num : ℤ).sign := by
    rw [hsign]
    positivity
  have fden : 0 < (float64 (T : ℤ)).den * (num : ℤ).natAbs := by
    simp only [Int.natAbs_ofNat]
    exact Nat.mul_pos ad hnum
  have fval : (⟨(float64 (T : ℤ)).num * den * (num : ℤ).sign,
      (float64 (T : ℤ)).den * (num : ℤ).natAbs⟩ : Frac).val = (T : ℚ) * den / num := by
    have adq : ((float64 (T : ℤ)).den : ℚ) ≠ 0 := by
      have : (0 : ℚ) < ((float64 (T : ℤ)).den : ℚ) := by exact_mod_cast ad
      exact ne_of_gt this
    simp only [Frac.val, hsign, Int.natAbs_ofNat] at av ⊢
    push_cast
    rw [← av]
    field_simp
  obtain ⟨q0, qd⟩ := roundF64_wf ⟨(float64 (T : ℤ)).num * den * (num : ℤ).sign,
    (float64 (T : ℤ)).den * (num : ℤ).natAbs⟩ fnum fden
  have qlo := le_roundF64 ⟨(float64 (T : ℤ)).num * den * (num : ℤ).sign,
    (float64 (T : ℤ)).den * (num : ℤ).natAbs⟩ fnum fden lo 0 hlo53 (by norm_num)
    (by
      rw [fval, zpow_zero, mul_one, le_div_iff₀ hnq]
      exact_mod_cast hlo)
  have qhi := roundF64_lt_natCast ⟨(float64 (T : ℤ)).num * den * (num : ℤ).sign,
    (float64 (T : ℤ)).den * (num : ℤ).natAbs⟩ fnum fden hi j (by omega)
    (by
      rw [fval, div_mul_eq_mul_div, div_lt_iff₀ hnq]
      exact_mod_cast hx)
    (by
      rw [fval]
      have h1 : ((2 * T * den * 2 ^ j + num : ℕ) : ℚ) < ((2 * hi * 2 ^ j * num : ℕ) : ℚ) := by
        exact_mod_cast hhi
      push_cast at h1
      have e : 2 * ((T : ℚ) * den / num) * 2 ^ j + 1
          = (2 * (T : ℚ) * den * 2 ^ j + num) / num := by
        field_simp
        ring
      rw [e, div_lt_iff₀ hnq]
      exact h1)
  rw [← fdef] at q0 qd qlo qhi
  rcases truncate_eq_floor (fdiv (float64 (T : ℤ)) ⟨(num : ℤ), den⟩) with ht | ht
  · rw [ht]
    simp only [zpow_zero, mul_one] at qlo
    refine ⟨Int.le_floor.mpr (by exact_mod_cast qlo), Int.floor_lt.mpr (by exact_mod_cast qhi)⟩
  · omega

/-- A natural number that is a multiple `m * 2 ^ 9` with `m` below `2 ^ 53` converts to
`float64` exactly. -/
theorem float64_mul_512 (m : ℕ) (hm : m < 2 ^ 53) :
    (float64 ((m * 512 : ℕ) : ℤ)).val = ((m * 512 : ℕ) : ℚ) ∧
      0 ≤ (float64 ((m * 512 : ℕ) : ℤ)).num ∧ 0 < (float64 ((m * 512 : ℕ) : ℤ)).den := by
  have hv : (⟨((m * 512 : ℕ) : ℤ), 1⟩ : Frac).val = (m : ℚ) * 2 ^ (9 : ℤ) := by
    simp only [Frac.val]
    push_cast
    norm_num
  have hw := roundF64_wf ⟨((m * 512 : ℕ) : ℤ), 1⟩ (Int.ofNat_nonneg _) (by norm_num)
  have h1 := le_roundF64 ⟨((m * 512 : ℕ) : ℤ), 1⟩ (Int.ofNat_nonneg _) (by norm_num) m 9 hm
    (by norm_num) (le_of_eq hv.symm)
  have h3 := roundF64_le ⟨((m * 512 : ℕ) : ℤ), 1⟩ (Int.ofNat_nonneg _) (by norm_num) m 9 hm
    (by norm_num) (le_of_eq hv)
  have e : ((m * 512 : ℕ) : ℚ) = (m : ℚ) * 2 ^ (9 : ℤ) := by
    push_cast
    norm_num
  rw [e]
  exact ⟨le_antisymm h3 h1, hw⟩

/-- The duration `time.Duration(float64(T) / speed)` for a total `T` that is a multiple of
`2 ^ 9` below `2 ^ 62`: it lies between two such multiples that the exact quotient
`T * den / num` lies between. -/
theorem adjusted_bounds_wide (T num den m kl kh : ℕ) (hnum : 0 < num) (hden : 0 < den)
    (hT : T = m * 512) (hm : m < 2 ^ 53) (hkl : kl < 2 ^ 53) (hkh : kh < 2 ^ 53)
    (hlo : kl * 512 * num ≤ T * den) (hhi : T * den ≤ kh * 512 * num) :
    ((kl * 512 : ℕ) : ℤ) ≤ truncate (fdiv (float64 (T : ℤ)) ⟨(num : ℤ), den⟩) ∧
      truncate (fdiv (float64 (T : ℤ)) ⟨(num : ℤ), den⟩) ≤ ((kh * 512 : ℕ) : ℤ) := by
  obtain ⟨av, a0, ad⟩ := float64_mul_512 m hm
  rw [← hT] at av a0 ad
  have hnq : (0 : ℚ) < num := by exact_mod_cast hnum
  have hsign : (num : ℤ).sign = 1 := Int.sign_eq_one_of_pos (by exact_mod_cast hnum)
  have fdef : fdiv (float64 (T : ℤ)) ⟨(num : ℤ), den⟩
      = roundF64 ⟨(float64 (T : ℤ)).num * den * (num : ℤ).sign,
          (float64 (T : ℤ)).den * (num : ℤ).natAbs⟩ := rfl
  have fnum : 0 ≤ (float64 (T : ℤ)).num * den * (num : ℤ).sign := by
    rw [hsign]
    positivity
  have fden : 0 < (float64 (T : ℤ)).den * (num : ℤ).natAbs := by
    simp only [Int.natAbs_ofNat]
    exact Nat.mul_pos ad hnum
  have fval : (⟨(float64 (T : ℤ)).num * den * (num : ℤ).sign,
      (float64 (T : ℤ)).den * (num : ℤ).natAbs⟩ : Frac).val = (T : ℚ) * den / num := by
    have adq : ((float64 (T : ℤ)).den : ℚ) ≠ 0 := by
      have : (0 : ℚ) < ((float64 (T : ℤ)).den : ℚ) := by exact_mod_cast ad
      exact ne_of_gt this
    simp only [Frac.val, hsign, Int.natAbs_ofNat] at av ⊢
    push_cast
    rw [← av]
    field_simp
  have e9 : ∀ k : ℕ, (k : ℚ) * 2 ^ (9 : ℤ) = ((k * 512 : ℕ) : ℚ) := by
    intro k
    push_cast
    norm_num
  obtain ⟨q0, qd⟩ := roundF64_wf ⟨(float64 (T : ℤ)).num * den * (num : ℤ).sign,
    (float64 (T : ℤ)).den * (num : ℤ).natAbs⟩ fnum fden
  have qlo := le_roundF64 ⟨(float64 (T : ℤ)).num * den * (num : ℤ).sign,
    (float64 (T : ℤ)).den * (num : ℤ).natAbs⟩ fnum fden kl 9 hkl (by norm_num)
    (by
      rw [fval, e9, le_div_iff₀ hnq]
      exact_mod_cast hlo)
  have qhi := roundF64_le ⟨(float64 (T : ℤ)).num * den * (num : ℤ).sign,
    (float64 (T : ℤ)).den * (num : ℤ).natAbs⟩ fnum fden kh 9 hkh (by norm_num)
    (by
      rw [fval, e9, div_le_iff₀ hnq]
      exact_mod_cast hhi)
  rw [← fdef] at q0 qd qlo qhi
  rw [e9] at qlo qhi
  rcases truncate_eq_floor (fdiv (float64 (T : ℤ)) ⟨(num : ℤ), den⟩) with ht | ht
  · rw [ht]
    refine ⟨Int.le_floor.mpr (by exact_mod_cast qlo), ?_⟩
    have h1 := Int.floor_le (fdiv (float64 (T : ℤ)) ⟨(num : ℤ), den⟩).val
    have h2 : ((⌊(fdiv (float64 (T : ℤ)) ⟨(num : ℤ), den⟩).val⌋ : ℤ) : ℚ)
        ≤ (((kh * 512 : ℕ) : ℤ) : ℚ) := by
      push_cast
      push_cast at qhi
      linarith
    exact_mod_cast h2
  · omega

/-- The line printed, given the duration `A` that the quotient converts to, when `A` has the
whole seconds `N` and its fields are exact. -/
theorem printDurationAtSpeed_of_adjusted (T : ℤ) (speed : Frac) (A N : ℕ)
    (hA : truncate (fdiv (float64 T) speed) = (A : ℤ))
    (c1 : N * 1000000000 ≤ A) (c2 : A < (N + 1) * 1000000000) (hA63 : A < 2 ^ 63)
    (hf : A % 1000000000 ≤ 900000000 ∨ A < 4096 * 3600000000000) :
    printDurationAtSpeed T speed
      = some ("At ".toList ++ formatFloat2 speed ++ "x: ".toList
          ++ hmsOfSeconds (N : ℤ) ++ "\n".toList) := by
  obtain ⟨f1, f2, f3⟩ := formatDuration_fields A hA63 hf
  unfold printDurationAtSpeed toInt64
  rw [hA, if_pos (by unfold minInt64 maxInt64; constructor <;> omega)]
  simp only
  unfold formatDuration hmsOfSeconds
  simp only [f1, f2, f3]
  rw [Int.tmod_eq_emod (by positivity) (by norm_num),
    Int.tmod_eq_emod (by positivity) (by norm_num)]
  have g1 : ((A / 3600000000000 : ℕ) : ℤ) = (N : ℤ) / 3600 := by omega
  have g2 : ((A / 60000000000 : ℕ) : ℤ) % 60 = (N : ℤ) / 60 % 60 := by omega
  have g3 : ((A / 1000000000 : ℕ) : ℤ) % 60 = (N : ℤ) % 60 := by omega
  rw [g1, g2, g3]

/-- The line printed for a total below `2 ^ 53` nanoseconds, given the whole seconds `N` of
the exact quotient. -/
theorem printDurationAtSpeed_core (T num den N j : ℕ) (hT : T < 2 ^ 53) (hnum : 0 < num)
    (hden : 0 < den) (hj : j ≤ 1) (hlo : N * 1000000000 * num ≤ T * den)
    (hx : T * den * 2 ^ j < 2 ^ 53 * num)
    (hhi : 2 * T * den * 2 ^ j + num < 2 * ((N + 1) * 1000000000) * 2 ^ j * num)
    (hcap : (N + 1) * 1000000000 ≤ 4096 * 3600000000000) :
    printDurationAtSpeed (T : ℤ) ⟨(num : ℤ), den⟩
      = some ("At ".toList ++ formatFloat2 ⟨(num : ℤ), den⟩ ++ "x: ".toList
          ++ hmsOfSeconds (N : ℤ) ++ "\n".toList) := by
  have hN53 : N * 1000000000 < 2 ^ 53 := by
    have h1 : T * den ≤ T * den * 2 ^ j := Nat.le_mul_of_pos_right _ (by positivity)
    exact Nat.lt_of_mul_lt_mul_right (lt_of_le_of_lt (le_trans hlo h1) hx)
  obtain ⟨b1, b2⟩ := adjusted_bounds T num den (N * 1000000000) ((N + 1) * 1000000000) j hT
    hnum hden hj hN53 hlo hx hhi
  have hA0 : 0 ≤ truncate (fdiv (float64 (T : ℤ)) ⟨(num : ℤ), den⟩) :=
    le_trans (Int.ofNat_nonneg _) b1
  obtain ⟨A, hA⟩ := Int.eq_ofNat_of_zero_le hA0
  rw [hA] at b1 b2
  have c1 : N * 1000000000 ≤ A := by exact_mod_cast b1
  have c2 : A < (N + 1) * 1000000000 := by exact_mod_cast b2
  exact printDurationAtSpeed_of_adjusted (T : ℤ) ⟨(num : ℤ), den⟩ A N hA c1 c2
    (by norm_num; omega) (Or.inr (by omega))

/-- The line printed for a total that is a whole number `n` of seconds below `2 ^ 62`
nanoseconds, given the whole seconds `N` of the exact quotient, whose sub-second part is at
most 0.87 seconds. -/
theorem printDurationAtSpeed_core_wide (n num den N : ℕ) (hn : n * 1000000000 < 2 ^ 62)
    (hnum : 0 < num) (hden : 0 < den) (hcap : N * 1000000000 + 870400000 < 2 ^ 62)
    (hlo : N * num ≤ n * den) (hhi : n * den * 1000000000 ≤ (N * 1000000000 + 870400000) * num) :
    printDurationAtSpeed ((n * 1000000000 : ℕ) : ℤ) ⟨(num : ℤ), den⟩
      = some ("At ".toList ++ formatFloat2 ⟨(num : ℤ), den⟩ ++ "x: ".toList
          ++ hmsOfSeconds (N : ℤ) ++ "\n".toList) := by
  norm_num at hn hcap
  obtain ⟨b1, b2⟩ := adjusted_bounds_wide (n * 1000000000) num den (n * 1953125)
    (N * 1953125) (N * 1953125 + 1700000) hnum hden (by omega) (by norm_num; omega)
    (by norm_num; omega) (by norm_num; omega)
    (by
      have e : N * 1953125 * 512 * num = N * num * 1000000000 := by ring
      have e2 : n * 1000000000 * den = n * den * 1000000000 := by ring
      rw [e, e2]
      exact Nat.mul_le_mul_right _ hlo)
    (by
      have e : (N * 1953125 + 1700000) * 512 * num = (N * 1000000000 + 870400000) * num := by
        ring
      have e2 : n * 1000000000 * den = n * den * 1000000000 := by ring
      rw [e, e2]
      exact hhi)
  have hA0 : 0 ≤ truncate (fdiv (float64 ((n * 1000000000 : ℕ) : ℤ)) ⟨(num : ℤ), den⟩) :=
    le_trans (Int.ofNat_nonneg _) b1
  obtain ⟨A, hA⟩ := Int.eq_ofNat_of_zero_le hA0
  rw [hA] at b1 b2
  have c1 : N * 1953125 * 512 ≤ A := by exact_mod_cast b1
  have c2 : A ≤ (N * 1953125 + 1700000) * 512 := by exact_mod_cast b2
  exact printDurationAtSpeed_of_adjusted ((n * 1000000000 : ℕ) : ℤ) ⟨(num : ℤ), den⟩ A N hA
    (by omega) (by omega) (by norm_num; omega) (Or.inl (by omega))

theorem floor_speed (T num den : ℕ) :
    ⌊(T : ℚ) / ((num : ℚ) / den) / 1000000000⌋
      = ((T * den / (num * 1000000000) : ℕ) : ℤ) := by
  have e : (T : ℚ) / ((num : ℚ) / den) / 1000000000
      = (((T * den : ℕ) : ℤ) : ℚ) / ((num * 1000000000 : ℕ) : ℚ) := by
    push_cast
    rw [div_div_eq_mul_div, div_div]
  rw [e, Rat.floor_intCast_div_natCast]
  norm_cast

/-! ## Claims about `formatDuration` and `printDurationAtSpeed` -/

/-- C4 fails on the code.  One nanosecond short of 4097 hours, `Duration.Hours` is the
`float64` sum `4096 + 0.99999999999972...`, which rounds to `4097`: `formatDuration` prints
4097 hours where the duration holds 4096 whole hours.  Likewise one nanosecond short of
16777217 seconds the seconds field is rounded up, to 17 where the whole seconds modulo 60
are 16. -/
theorem formatDuration_rounds_up :
    (0 : Int) ≤ 4097 * Hour - 1 ∧
    formatDuration (4097 * Hour - 1) = "4097h 59m 59s".toList ∧
    hms (4097 * Hour - 1) = "4096h 59m 59s".toList ∧
    formatDuration (4097 * Hour - 1) ≠ hms (4097 * Hour - 1) ∧
    formatDuration (16777216 * Second + 999999999) = "4660h 20m 17s".toList ∧
    hms (16777216 * Second + 999999999) = "4660h 20m 16s".toList := by
  refine ⟨by decide, by decide, by decide, by decide, by decide, by decide⟩

/-- C4 as amended.  For every non-negative duration `d` that is a whole number of seconds,
or is below 4096 hours, `formatDuration d` is exactly `"<H>h <M>m <S>s"` where `H` is the
whole number of hours in `d`, `M` the whole number of minutes in `d` modulo 60 and `S` the
whole number of seconds in `d` modulo 60, each written in decimal: any sub-second remainder
is truncated, never rounded up. -/
theorem formatDuration_hms (d : ℤ) (h0 : 0 ≤ d) (hmax : d ≤ maxInt64)
    (h : d % Second = 0 ∨ d < 4096 * Hour) : formatDuration d = hms d := by
  lift d to ℕ using h0 with D
  have hD : D < 2 ^ 63 := by
    unfold maxInt64 at hmax
    omega
  have hh : D % 1000000000 ≤ 900000000 ∨ D < 4096 * 3600000000000 := by
    rw [Second_eq, Hour_eq] at h
    rcases h with h | h
    · left; omega
    · right; omega
  obtain ⟨f1, f2, f3⟩ := formatDuration_fields D hD hh
  unfold formatDuration hms
  simp only [f1, f2, f3]
  rw [Int.tmod_eq_emod (by positivity) (by norm_num),
    Int.tmod_eq_emod (by positivity) (by norm_num), Hour_eq, Minute_eq, Second_eq]
  rfl

/-- The fixtures of C4: 3723 seconds is `1h 2m 3s` and 90 seconds is `0h 1m 30s`. -/
theorem formatDuration_hms_witness :
    formatDuration (3723 * Second) = "1h 2m 3s".toList ∧
    formatDuration (90 * Second) = "0h 1m 30s".toList :=
  ⟨(formatDuration_hms (3723 * Second) (by decide) (by decide) (by decide)).trans (by decide),
   (formatDuration_hms (90 * Second) (by decide) (by decide) (by decide)).trans (by decide)⟩

/-- C7 fails on the code.  The total 4611686025 seconds is just above `2 ^ 62` nanoseconds,
where a `float64` holds multiples of 1024 only: `float64(total)` is 512 ns short of the
total, the quotient by 1.25 comes out 512 ns short of 3689348820 seconds, and the line
printed is `At 1.25x: 1024819h 6m 59s` where the quotient by real-number division is
exactly 3689348820 seconds, `1024819h 7m 0s`.  For a total that is not a whole number of
seconds the same happens from `2 ^ 53` nanoseconds on: 9007199999999999 ns converts to
9007200000000000, and the line is `At 2.00x: 1251h 0m 0s` where the real quotient has
4503599 whole seconds, `1250h 59m 59s`. -/
theorem printDurationAtSpeed_rounds_up :
    (0 : ℤ) ≤ 4611686025 * Second ∧
    printDurationAtSpeed (4611686025 * Second) ⟨5, 4⟩
      = some "At 1.25x: 1024819h 6m 59s\n".toList ∧
    ⌊(((4611686025 * Second : ℤ)) : ℚ) / (5 / 4) / 1000000000⌋ = 3689348820 ∧
    hmsOfSeconds 3689348820 = "1024819h 7m 0s".toList ∧
    "At 1.25x: 1024819h 6m 59s\n".toList
      ≠ "At 1.25x: ".toList ++ hmsOfSeconds 3689348820 ++ "\n".toList ∧
    printDurationAtSpeed 9007199999999999 ⟨2, 1⟩ = some "At 2.00x: 1251h 0m 0s\n".toList ∧
    ⌊(9007199999999999 : ℚ) / (2 / 1) / 1000000000⌋ = 4503599 ∧
    hmsOfSeconds 4503599 = "1250h 59m 59s".toList ∧
    "At 2.00x: 1251h 0m 0s\n".toList
      ≠ "At 2.00x: ".toList ++ hmsOfSeconds 4503599 ++ "\n".toList := by
  refine ⟨by decide, by decide, ?_, by decide, by decide, by decide, ?_, by decide,
    by decide⟩
  · rw [Int.floor_eq_iff]
    constructor <;> norm_num [Second]
  · rw [Int.floor_eq_iff]
    constructor <;> norm_num

/-- C7 as amended.  For every non-negative total duration that is below `2 ^ 53`
nanoseconds (a little over 104 days), or is a whole number of seconds below `2 ^ 62`
nanoseconds (a little over 146 years), and each multiplier `k` in {1.25, 1.5, 1.75, 2.0},
`printDurationAtSpeed(total, k)` prints the line `At <k with two decimal places>x: <F>`
where `F` is the `"<H>h <M>m <S>s"` report of `total / k`, the quotient being taken by
real-number division and then truncated to whole seconds. -/
theorem printDurationAtSpeed_exact (total : ℤ) (h0 : 0 ≤ total)
    (h : total < 2 ^ 53 ∨ (total % Second = 0 ∧ total < 2 ^ 62)) :
    printDurationAtSpeed total ⟨5, 4⟩
      = some ("At 1.25x: ".toList
          ++ hmsOfSeconds ⌊(total : ℚ) / (5 / 4) / 1000000000⌋ ++ "\n".toList) ∧
    printDurationAtSpeed total ⟨3, 2⟩
      = some ("At 1.50x: ".toList
          ++ hmsOfSeconds ⌊(total : ℚ) / (3 / 2) / 1000000000⌋ ++ "\n".toList) ∧
    printDurationAtSpeed total ⟨7, 4⟩
      = some ("At 1.75x: ".toList
          ++ hmsOfSeconds ⌊(total : ℚ) / (7 / 4) / 1000000000⌋ ++ "\n".toList) ∧
    printDurationAtSpeed total ⟨2, 1⟩
      = some ("At 2.00x: ".toList
          ++ hmsOfSeconds ⌊(total : ℚ) / (2 / 1) / 1000000000⌋ ++ "\n".toList) := by
  lift total to ℕ using h0 with T
  have e1 := floor_speed T 5 4
  have e2 := floor_speed T 3 2
  have e3 := floor_speed T 7 4
  have e4 := floor_speed T 2 1
  have l1 : formatFloat2 ⟨((5 : ℕ) : ℤ), 4⟩ = "1.25".toList := by decide
  have l2 : formatFloat2 ⟨((3 : ℕ) : ℤ), 2⟩ = "1.50".toList := by decide
  have l3 : formatFloat2 ⟨((7 : ℕ) : ℤ), 4⟩ = "1.75".toList := by decide
  have l4 : formatFloat2 ⟨((2 : ℕ) : ℤ), 1⟩ = "2.00".toList := by decide
  push_cast at e1 e2 e3 e4
  rw [Int.cast_natCast, e1, e2, e3, e4]
  rcases h with hlt | ⟨hsec, hlt⟩
  · have hT : T < 2 ^ 53 := by exact_mod_cast hlt
    have hT' : T < 9007199254740992 := by norm_num at hT; exact hT
    have k1 := printDurationAtSpeed_core T 5 4 (T * 4 / (5 * 1000000000)) 0 hT (by norm_num)
      (by norm_num) (by norm_num) (by omega) (by norm_num; omega) (by norm_num; omega)
      (by omega)
    have k2 := printDurationAtSpeed_core T 3 2 (T * 2 / (3 * 1000000000)) 0 hT (by norm_num)
      (by norm_num) (by norm_num) (by omega) (by norm_num; omega) (by norm_num; omega)
      (by omega)
    have k3 := printDurationAtSpeed_core T 7 4 (T * 4 / (7 * 1000000000)) 0 hT (by norm_num)
      (by norm_num) (by norm_num) (by omega) (by norm_num; omega) (by norm_num; omega)
      (by omega)
    have k4 := printDurationAtSpeed_core T 2 1 (T * 1 / (2 * 1000000000)) 1 hT (by norm_num)
      (by norm_num) (by norm_num) (by omega) (by norm_num; omega) (by norm_num; omega)
      (by omega)
    rw [l1] at k1
    rw [l2] at k2
    rw [l3] at k3
    rw [l4] at k4
    exact ⟨k1, k2, k3, k4⟩
  · have hT : T < 2 ^ 62 := by exact_mod_cast hlt
    have hT' : T < 4611686018427387904 := by norm_num at hT; exact hT
    have hs : T % 1000000000 = 0 := by
      rw [Second_eq] at hsec
      omega
    obtain ⟨n, hn⟩ : ∃ n, T = n * 1000000000 := ⟨T / 1000000000, by omega⟩
    subst hn
    have k1 := printDurationAtSpeed_core_wide n 5 4 (n * 1000000000 * 4 / (5 * 1000000000))
      hT (by norm_num) (by norm_num) (by norm_num; omega) (by omega) (by omega)
    have k2 := printDurationAtSpeed_core_wide n 3 2 (n * 1000000000 * 2 / (3 * 1000000000))
      hT (by norm_num) (by norm_num) (by norm_num; omega) (by omega) (by omega)
    have k3 := printDurationAtSpeed_core_wide n 7 4 (n * 1000000000 * 4 / (7 * 1000000000))
      hT (by norm_num) (by norm_num) (by norm_num; omega) (by omega) (by omega)
    have k4 := printDurationAtSpeed_core_wide n 2 1 (n * 1000000000 * 1 / (2 * 1000000000))
      hT (by norm_num) (by norm_num) (by norm_num; omega) (by omega) (by omega)
    rw [l1] at k1
    rw [l2] at k2
    rw [l3] at k3
    rw [l4] at k4
    exact ⟨k1, k2, k3, k4⟩

/-- The fixtures of C7: a total of 7200 seconds gives `At 2.00x: 1h 0m 0s` and
`At 1.25x: 1h 36m 0s`; and a whole number of seconds above `2 ^ 53` nanoseconds: ten million
seconds give `At 2.00x: 1388h 53m 20s`. -/
theorem printDurationAtSpeed_exact_witness :
    printDurationAtSpeed (7200 * Second) ⟨2, 1⟩ = some "At 2.00x: 1h 0m 0s\n".toList ∧
    printDurationAtSpeed (7200 * Second) ⟨5, 4⟩ = some "At 1.25x: 1h 36m 0s\n".toList ∧
    printDurationAtSpeed (10000000 * Second) ⟨2, 1⟩
      = some "At 2.00x: 1388h 53m 20s\n".toList := by
  obtain ⟨h1, _, _, h4⟩ := printDurationAtSpeed_exact (7200 * Second) (by decide)
    (Or.inl (by decide))
  obtain ⟨_, _, _, w4⟩ := printDurationAtSpeed_exact (10000000 * Second) (by decide)
    (Or.inr (by decide))
  have e1 : ⌊((7200 * Second : ℤ) : ℚ) / (5 / 4) / 1000000000⌋ = 5760 := by
    rw [Int.floor_eq_iff]
    constructor <;> norm_num [Second]
  have e4 : ⌊((7200 * Second : ℤ) : ℚ) / (2 / 1) / 1000000000⌋ = 3600 := by
    rw [Int.floor_eq_iff]
    constructor <;> norm_num [Second]
  have e5 : ⌊((10000000 * Second : ℤ) : ℚ) / (2 / 1) / 1000000000⌋ = 5000000 := by
    rw [Int.floor_eq_iff]
    constructor <;> norm_num [Second]
  rw [e1] at h1
  rw [e4] at h4
  rw [e5] at w4
  exact ⟨h4.trans (by decide), h1.trans (by decide), w4.trans (by decide)⟩

end Ytplaycount
